import Mathlib

/-!
Verification of the deparse dependency extractor (src/deparse/core.py).

The development shallowly embeds the parts of core.py that the checked
properties are about:

* the generic first-match line dispatch of LineParser.parseLine;
* LineParser.resolve, the symbol-to-path resolver, instrumented with an
  explicit trace of the filesystem operations it performs;
* the Tracker crawler (_fromPath / _merge / resolve), instrumented with an
  explicit log of parse and recursion events;
* Tracker._sortRequires, the cycle-tolerant load-order sort;
* the Sugar line parser and the parse/parsePath entry points.

Filesystem state, the regular-expression engine and the per-format
extraction step are modelled as explicit oracle parameters; everything
else is translated directly from the Python source.  Machine-level
details (file handles, logging sinks) are out of scope.
-/

/-- A dependency item, the Python pair (type, name). -/
abbrev Item := String × String

/-! ## Small list helpers shared by several components -/

/-- Python membership-guarded merge, Tracker._merge (core.py 518-522):
for e in b: if e not in a: a.append(e). -/
def mergeL {α : Type} [DecidableEq α] (a b : List α) : List α :=
  b.foldl (fun acc e => if e ∈ acc then acc else acc ++ [e]) a

/-- The final dedup of LineParser.resolve (core.py 150):
reduce(lambda x,y: x + [y] if y not in x else x, res, []). -/
def dedupKeep {α : Type} [DecidableEq α] (l : List α) : List α :=
  l.foldl (fun x y => if y ∈ x then x else x ++ [y]) []

/-- Lookup in an insertion-ordered association list (a Python dict). -/
def lookupA {κ ν : Type} [DecidableEq κ] : List (κ × ν) → κ → Option ν
  | [], _ => none
  | (k, v) :: rest, k' => if k = k' then some v else lookupA rest k'

/-- Assignment d[k] = v on an insertion-ordered association list: an existing
key keeps its position, a new key is appended (Python dict semantics). -/
def setA {κ ν : Type} [DecidableEq κ] (l : List (κ × ν)) (k : κ) (v : ν) :
    List (κ × ν) :=
  if l.any (fun kv => kv.1 = k) then
    l.map (fun kv => if kv.1 = k then (k, v) else kv)
  else l ++ [(k, v)]

/-- Byte-wise (code point) comparison of character lists, the order Python
uses to sort strings. -/
def clLe : List Char → List Char → Bool
  | [], _ => true
  | _ :: _, [] => false
  | a :: as, b :: bs => if a = b then clLe as bs else decide (a < b)

/-- Python string comparison. -/
def strLe (a b : String) : Bool := clLe a.data b.data

/-- Python tuple comparison on (kind, path) pairs. -/
def pairLe (a b : String × String) : Bool :=
  if a.1 = b.1 then strLe a.2 b.2 else strLe a.1 b.1

/-- Insert into an ascending list, keeping the new element before any
element it compares ≤ to. -/
def insLe {α : Type} (le : α → α → Bool) (x : α) : List α → List α
  | [] => [x]
  | y :: ys => if le x y then x :: y :: ys else y :: insLe le x ys

/-- Stable ascending sort; on a list ordered by a total order this yields
the same sequence as Python's sorted(). -/
def isort {α : Type} (le : α → α → Bool) (l : List α) : List α :=
  l.foldr (insLe le) []

theorem mem_insLe {α : Type} (le : α → α → Bool) (x : α) (l : List α) (z : α) :
    z ∈ insLe le x l ↔ z = x ∨ z ∈ l := by
  induction l with
  | nil => simp [insLe]
  | cons y ys ih =>
    by_cases h : le x y = true
    · simp [insLe, h]
    · simp [insLe, h, ih]
      tauto

theorem mem_isort {α : Type} (le : α → α → Bool) (l : List α) (z : α) :
    z ∈ isort le l ↔ z ∈ l := by
  induction l with
  | nil => simp [isort]
  | cons y ys ih => simp [isort, mem_insLe, List.foldr] at *; tauto

/-- A sortedness predicate: every element is ≤ all later elements. -/
def ChainLe {α : Type} (le : α → α → Bool) (l : List α) : Prop :=
  l.Pairwise (fun a b => le a b = true)

theorem chainLe_insLe {α : Type} (le : α → α → Bool)
    (htot : ∀ a b, le a b = true ∨ le b a = true)
    (htr : ∀ a b c, le a b = true → le b c = true → le a c = true)
    (x : α) (l : List α) (h : ChainLe le l) : ChainLe le (insLe le x l) := by
  induction l with
  | nil => simp [ChainLe, insLe]
  | cons y ys ih =>
    rw [ChainLe, List.pairwise_cons] at h
    by_cases hxy : le x y = true
    · rw [ChainLe, insLe, if_pos hxy, List.pairwise_cons]
      refine ⟨?_, List.pairwise_cons.mpr h⟩
      intro z hz
      rcases List.mem_cons.mp hz with hz | hz
      · subst hz; exact hxy
      · exact htr x y z hxy (h.1 z hz)
    · have hyx : le y x = true := (htot x y).resolve_left hxy
      rw [ChainLe, insLe, if_neg hxy, List.pairwise_cons]
      refine ⟨?_, ih h.2⟩
      intro z hz
      rcases (mem_insLe le x ys z).mp hz with hz | hz
      · subst hz; exact hyx
      · exact h.1 z hz

theorem chainLe_isort {α : Type} (le : α → α → Bool)
    (htot : ∀ a b, le a b = true ∨ le b a = true)
    (htr : ∀ a b c, le a b = true → le b c = true → le a c = true)
    (l : List α) : ChainLe le (isort le l) := by
  induction l with
  | nil => exact List.Pairwise.nil
  | cons y ys ih => exact chainLe_insLe le htot htr y _ ih

theorem mem_mergeL {α : Type} [DecidableEq α] (a b : List α) (z : α) :
    z ∈ mergeL a b ↔ z ∈ a ∨ z ∈ b := by
  induction b generalizing a with
  | nil => simp [mergeL]
  | cons e rest ih =>
    have hset : ∀ w, (w ∈ if e ∈ a then a else a ++ [e]) ↔ w ∈ a ∨ w = e := by
      intro w
      by_cases h : e ∈ a
      · rw [if_pos h]
        exact ⟨Or.inl, fun hw => hw.elim id (fun he => he ▸ h)⟩
      · rw [if_neg h]
        simp
    simp only [mergeL, List.foldl_cons] at *
    rw [ih, hset z, List.mem_cons]
    tauto

/-! ## The generic first-match line dispatch (LineParser.parseLine) -/

section LineDispatch

variable {Pat Mtch St Line : Type}

/-- LineParser.parseLine (core.py 96-102): walk the ordered rule table; on
the first pattern that matches, run the handler bound to that rule name
with the line and the match, and stop.  Besides the new state it reports
which handlers were invoked and which patterns were tested, so that the
dispatch discipline itself is a provable statement. -/
def parseLineT (matcher : Pat → Line → Option Mtch)
    (handler : String → St → Line → Mtch → St) :
    List (String × Pat) → Line → St → St × List String × List Pat
  | [], _, st => (st, [], [])
  | (n, e) :: rest, line, st =>
    match matcher e line with
    | some m => (handler n st line m, [n], [e])
    | none =>
      let r := parseLineT matcher handler rest line st
      (r.1, r.2.1, e :: r.2.2)

theorem parseLineT_invoked_le_one (matcher : Pat → Line → Option Mtch)
    (handler : String → St → Line → Mtch → St)
    (rules : List (String × Pat)) (line : Line) (st : St) :
    (parseLineT matcher handler rules line st).2.1.length ≤ 1 := by
  induction rules generalizing st with
  | nil => simp [parseLineT]
  | cons r rest ih =>
    obtain ⟨n, e⟩ := r
    simp only [parseLineT]
    cases matcher e line with
    | some m => simp
    | none => simpa using ih st

theorem parseLineT_first_match (matcher : Pat → Line → Option Mtch)
    (handler : String → St → Line → Mtch → St)
    (rules : List (String × Pat)) (line : Line) (st : St)
    (i : Nat) (h : i < rules.length)
    (hm : (matcher (rules.get ⟨i, h⟩).2 line).isSome)
    (hnone : ∀ j (hj : j < i),
      matcher (rules.get ⟨j, Nat.lt_trans hj h⟩).2 line = none) :
    ∃ m, matcher (rules.get ⟨i, h⟩).2 line = some m ∧
      parseLineT matcher handler rules line st =
        (handler (rules.get ⟨i, h⟩).1 st line m,
         [(rules.get ⟨i, h⟩).1],
         (rules.take (i + 1)).map Prod.snd) := by
  induction rules generalizing i st with
  | nil => exact absurd h (Nat.not_lt_zero i)
  | cons r rest ih =>
    obtain ⟨n, e⟩ := r
    cases i with
    | zero =>
      simp only [List.get] at hm ⊢
      cases hme : matcher e line with
      | none => rw [hme] at hm; simp at hm
      | some m =>
        exact ⟨m, rfl, by simp [parseLineT, hme]⟩
    | succ i' =>
      have h0 : matcher e line = none := hnone 0 (Nat.succ_pos i')
      have h' : i' < rest.length := Nat.lt_of_succ_lt_succ h
      have hnone' : ∀ j (hj : j < i'),
          matcher (rest.get ⟨j, Nat.lt_trans hj h'⟩).2 line = none := by
        intro j hj
        exact hnone (j + 1) (Nat.succ_lt_succ hj)
      obtain ⟨m, hm1, hm2⟩ := ih st i' h' hm hnone'
      refine ⟨m, hm1, ?_⟩
      simp only [parseLineT, h0, hm2, List.take, List.map]
      rfl

end LineDispatch

/-- Claim C8.  For every input line, LineParser.parseLine tests the rule
table's patterns in declared order; on the first pattern that matches it
invokes exactly the handler bound to that rule with the line and the
match, then stops testing further rules, so at most one handler runs per
line.  Formally: the invocation log of a dispatch never has more than one
entry, and whenever rule i is the first whose pattern matches, the result
is exactly the i-th handler applied once, with the tested patterns being
the table prefix up to and including rule i. -/
theorem claim_C8_first_match_dispatch :
    (∀ (Pat Mtch St Line : Type) (matcher : Pat → Line → Option Mtch)
       (handler : String → St → Line → Mtch → St)
       (rules : List (String × Pat)) (line : Line) (st : St),
       (parseLineT matcher handler rules line st).2.1.length ≤ 1) ∧
    (∀ (Pat Mtch St Line : Type) (matcher : Pat → Line → Option Mtch)
       (handler : String → St → Line → Mtch → St)
       (rules : List (String × Pat)) (line : Line) (st : St)
       (i : Nat) (h : i < rules.length),
       (matcher (rules.get ⟨i, h⟩).2 line).isSome →
       (∀ j (hj : j < i),
         matcher (rules.get ⟨j, Nat.lt_trans hj h⟩).2 line = none) →
       ∃ m, matcher (rules.get ⟨i, h⟩).2 line = some m ∧
         parseLineT matcher handler rules line st =
           (handler (rules.get ⟨i, h⟩).1 st line m,
            [(rules.get ⟨i, h⟩).1],
            (rules.take (i + 1)).map Prod.snd)) :=
  ⟨fun _ _ _ _ => parseLineT_invoked_le_one,
   fun _ _ _ _ => parseLineT_first_match⟩

/-- Witness for C8: a concrete two-rule table in which only the second
pattern matches; the dispatch runs exactly the second handler and tests
both patterns. -/
theorem claim_C8_witness :
    parseLineT (fun (p : Nat) (_ : String) => if p = 1 then some () else none)
      (fun n st _ _ => if n = "b" then st + 5 else st)
      [("a", 0), ("b", 1)] "line" 7 = (12, ["b"], [0, 1]) := by
  obtain ⟨m, -, heq⟩ :=
    claim_C8_first_match_dispatch.2 Nat Unit Nat String
      (fun p _ => if p = 1 then some () else none)
      (fun n st _ _ => if n = "b" then st + 5 else st)
      [("a", 0), ("b", 1)] "line" 7 1 (by decide) rfl
      (fun j hj => by
        have hj0 : j = 0 := Nat.lt_one_iff.mp hj
        subst hj0
        rfl)
  simpa using heq

/-! ## Path helpers (model of the posixpath functions used by core.py) -/

/-- Python str.split(sep) for a single character separator. -/
def splitOnC (sep : Char) : List Char → List (List Char)
  | [] => [[]]
  | c :: r =>
    let rest := splitOnC sep r
    if c = sep then [] :: rest
    else
      match rest with
      | [] => [[c]]
      | h :: t => (c :: h) :: t

/-- os.path.join for two components (posixpath.join). -/
def pjoin (a b : String) : String :=
  if b.data.take 1 = ['/'] then b
  else if a = "" ∨ a.data.getLast? = some '/' then ⟨a.data ++ b.data⟩
  else ⟨a.data ++ '/' :: b.data⟩

/-- Strip trailing slashes, as str.rstrip("/"). -/
def rstripSlash (l : List Char) : List Char :=
  (l.reverse.dropWhile (fun c => c = '/')).reverse

/-- os.path.dirname (posixpath): the prefix up to the last slash, with
trailing slashes stripped unless the head is made of slashes only. -/
def dirname (p : String) : String :=
  let head := (p.data.reverse.dropWhile (fun c => c ≠ '/')).reverse
  if head = [] then ""
  else if head.all (fun c => c = '/') then ⟨head⟩
  else ⟨rstripSlash head⟩

/-- os.path.normpath (posixpath): collapse empty and "." components and
resolve ".." against preceding components. -/
def normpath (p : String) : String :=
  if p = "" then "." else
  let l := p.data
  let initialSlashes : Nat :=
    if l.take 1 = ['/'] then
      (if l.take 2 = ['/', '/'] ∧ l.take 3 ≠ ['/', '/', '/'] then 2 else 1)
    else 0
  let comps := splitOnC '/' l
  let newComps := comps.foldl
    (fun acc comp =>
      if comp = [] ∨ comp = ['.'] then acc
      else if comp ≠ ['.', '.'] ∨ (initialSlashes = 0 ∧ acc = []) ∨
              (acc ≠ [] ∧ acc.getLast? = some ['.', '.']) then acc ++ [comp]
      else if acc ≠ [] then acc.dropLast else acc)
    []
  let s := List.replicate initialSlashes '/' ++ List.intercalate ['/'] newComps
  if s = [] then "." else ⟨s⟩

/-- os.path.abspath for a process whose working directory is cwd. -/
def abspath (cwd p : String) : String :=
  if p.data.take 1 = ['/'] then normpath p else normpath (pjoin cwd p)

/-- Python str.endswith: the reversed string starts with the reversed
suffix. -/
def endsW (s suff : String) : Bool :=
  decide (s.data.reverse.take suff.data.length = suff.data.reverse)

/-- Python substring containment (the in operator on str). -/
def hasSubAux (pat : List Char) : List Char → Bool
  | [] => decide (pat = [])
  | c :: r => pat.isPrefixOf (c :: r) || hasSubAux pat r

/-- Python substring containment: pat in s. -/
def hasSub (s pat : String) : Bool := hasSubAux pat.data s.data

/-- Python name.replace(".", "/"). -/
def dotToSlash (s : String) : String :=
  ⟨s.data.map (fun c => if c = '.' then '/' else c)⟩

/-- Part of a kind before the first colon: t.split(":", 1)[0]. -/
def beforeColon (s : String) : String := ⟨s.data.takeWhile (fun c => c ≠ ':')⟩

/-! ## The resolver (LineParser.resolve, core.py 110-172) -/

/-- Filesystem oracle: the observable behaviour of os.path.isdir,
os.path.exists, glob.glob and os.getcwd during resolution. -/
structure FS where
  isdir : String → Bool
  exist : String → Bool
  globMatch : String → List String
  cwd : String

/-- One filesystem operation performed by the resolver. -/
inductive FsOp
  | dirq (p : String)
  | globq (p : String)
  | existq (p : String)
deriving DecidableEq

/-- LineParser._subdirs (core.py 157-164): every dir joined with every
subdir, followed by the dirs themselves. -/
def subdirsD (dirs subs : List String) : List String :=
  (subs.foldl (fun res sd => res ++ dirs.map (fun d => pjoin d sd)) []) ++ dirs

/-- LineParser._glob (core.py 166-172): glob every expression in every
directory, in directory-major order, and sort the union; the second
component records the glob patterns probed on the filesystem. -/
def globT (fs : FS) (dirs exprs : List String) : List String × List FsOp :=
  let pats := dirs.flatMap (fun d => exprs.map (fun e => pjoin d e))
  (isort strLe (pats.flatMap fs.globMatch), pats.map FsOp.globq)

/-- The search-directory list built at core.py 116:
dirs + [getcwd(), dirname(abspath(path)) if not isdir(path) else abspath(path)].
Building it probes os.path.isdir(path) unconditionally. -/
def resolveDirs (fs : FS) (path : String) (dirs0 : List String) : List String :=
  dirs0 ++ [fs.cwd,
    if fs.isdir path then abspath fs.cwd path else dirname (abspath fs.cwd path)]

/-- The js:module plain-format candidates (core.py 121): glob of
name-*.js under the js module subdirs, keeping only paths without the
".gmodule" marker. -/
def jsModCandidates (fs : FS) (dirs : List String) (nm : String) : List String :=
  ((globT fs (subdirsD dirs ["lib/js", ""]) [⟨nm.data ++ "-*.js".data⟩]).1).filter
    (fun p => ! hasSub p ".gmodule")

/-- The js:module preferred-format candidates (core.py 123): glob of
name.sjs and name*-*.sjs under the sjs module subdirs. -/
def sjsModCandidates (fs : FS) (dirs : List String) (nm : String) : List String :=
  (globT fs (subdirsD dirs ["lib/sjs", ""])
    [⟨nm.data ++ ".sjs".data⟩, ⟨nm.data ++ "*-*.sjs".data⟩]).1

/-- Python res += preferred if preferred else (plain[-1],) if plain else (). -/
def pickPreferred (preferred plain : List (String × String)) :
    List (String × String) :=
  if preferred ≠ [] then preferred
  else
    match plain.getLast? with
    | some x => [x]
    | none => []

/-- The override hook LineParser._resolve (core.py 153-155): the base
class returns the resolved list unchanged. -/
def lineResolveHook (resolved : List (String × String)) (_item : Item)
    (_path : String) (_dirs : List String) : List (String × String) :=
  resolved

/-- LineParser.resolve (core.py 110-151), instrumented with the list of
filesystem operations it performs.  The kind-specific branches run in
source order; the local rebinding of name by the module branches is
threaded explicitly. -/
def resolveT (fs : FS) (item : Item) (path : String) (dirs0 : List String) :
    List (String × String) × List FsOp :=
  let t := item.1
  let name := item.2
  let dirs := resolveDirs fs path dirs0
  let tr0 : List FsOp := [FsOp.dirq path]
  -- branch: not t or t == "js:module"
  let st1 :=
    if t = "" ∨ t = "js:module" then
      let nm := dotToSlash name
      let jsModules :=
        isort pairLe ((jsModCandidates fs dirs nm).map (fun p => ("js:module", p)))
      let sjsModules :=
        isort pairLe ((sjsModCandidates fs dirs nm).map (fun p => ("sjs:module", p)))
      (pickPreferred sjsModules jsModules, nm,
        (globT fs (subdirsD dirs ["lib/js", ""]) [⟨nm.data ++ "-*.js".data⟩]).2 ++
        (globT fs (subdirsD dirs ["lib/sjs", ""])
          [⟨nm.data ++ ".sjs".data⟩, ⟨nm.data ++ "*-*.sjs".data⟩]).2)
    else ([], name, [])
  -- branch: not t or t == "js:gmodule"
  let st2 :=
    if t = "" ∨ t = "js:gmodule" then
      let nm := dotToSlash st1.2.1
      let g1 := globT fs (subdirsD dirs ["lib/js", ""]) [⟨nm.data ++ "-*.js".data⟩]
      let jsModules :=
        isort pairLe ((g1.1.filter (fun p => hasSub p ".gmodule")).map
          (fun p => ("js:gmodule", p)))
      let g2 := globT fs (subdirsD dirs ["lib/sjs", ""])
        [⟨nm.data ++ "*.sjs".data⟩, ⟨nm.data ++ "*-*.sjs".data⟩]
      let sjsModules := isort pairLe (g2.1.map (fun p => ("sjs:gmodule", p)))
      (st1.1 ++ pickPreferred sjsModules jsModules, nm, st1.2.2 ++ g1.2 ++ g2.2)
    else st1
  -- branch: not t or t == "css:module"
  let st3 :=
    if t = "" ∨ t = "css:module" then
      let nm := st2.2.1
      let g1 := globT fs (subdirsD dirs ["lib/css", ""]) [⟨nm.data ++ ".css".data⟩]
      let cssModules := isort pairLe (g1.1.map (fun p => ("css:module", p)))
      let g2 := globT fs (subdirsD dirs ["lib/pcss", ""]) [⟨nm.data ++ "*.pcss".data⟩]
      let pcssModules := isort pairLe (g2.1.map (fun p => ("pcss:module", p)))
      (st2.1 ++ pickPreferred pcssModules cssModules, nm, st2.2.2 ++ g1.2 ++ g2.2)
    else st2
  -- branch: not t or t.endswith(":file")
  let st4 :=
    if t = "" ∨ endsW t ":file" then
      let nm := st3.2.1
      let altname : String :=
        if t ≠ "" then ⟨nm.data ++ '.' :: (beforeColon t).data⟩ else nm
      let probes := [nm, altname].flatMap (fun n => dirs.map (fun d => pjoin d n))
      (st3.1 ++ (probes.filter fs.exist).map (fun p => ("*:file", p)), nm,
        st3.2.2 ++ probes.map FsOp.existq)
    else st3
  -- branch: t and t.endswith(":url")
  let res5 := if t ≠ "" ∧ endsW t ":url" then st4.1 ++ [item] else st4.1
  let res6 := lineResolveHook res5 item path []
  (dedupKeep res6, tr0 ++ st4.2.2)

/-! ## Order facts about the Python string and tuple comparisons -/

theorem clLe_refl (l : List Char) : clLe l l = true := by
  induction l with
  | nil => rfl
  | cons a as ih => simp [clLe, ih]

theorem clLe_total (a b : List Char) : clLe a b = true ∨ clLe b a = true := by
  induction a generalizing b with
  | nil => left; rfl
  | cons x xs ih =>
    cases b with
    | nil => right; rfl
    | cons y ys =>
      by_cases hxy : x = y
      · subst hxy
        simpa [clLe] using ih ys
      · rcases lt_trichotomy x y with h | h | h
        · left; simp [clLe, hxy, h]
        · exact absurd h hxy
        · right; simp [clLe, Ne.symm hxy, h]

theorem clLe_trans (a b c : List Char) (h1 : clLe a b = true)
    (h2 : clLe b c = true) : clLe a c = true := by
  induction a generalizing b c with
  | nil => rfl
  | cons x xs ih =>
    cases b with
    | nil => simp [clLe] at h1
    | cons y ys =>
      cases c with
      | nil => simp [clLe] at h2
      | cons z zs =>
        by_cases hxy : x = y <;> by_cases hyz : y = z
        · subst hxy; subst hyz
          simp only [clLe, if_pos rfl] at h1 h2 ⊢
          exact ih ys zs h1 h2
        · subst hxy
          simp only [clLe, if_pos rfl, if_neg hyz] at h2 ⊢
          exact h2
        · subst hyz
          simp only [clLe, if_neg hxy] at h1 ⊢
          exact h1
        · simp only [clLe, if_neg hxy] at h1
          simp only [clLe, if_neg hyz] at h2
          have hlt : x < z := lt_trans (of_decide_eq_true h1) (of_decide_eq_true h2)
          simp [clLe, ne_of_lt hlt, hlt]

theorem clLe_antisymm (a b : List Char) (h1 : clLe a b = true)
    (h2 : clLe b a = true) : a = b := by
  induction a generalizing b with
  | nil =>
    cases b with
    | nil => rfl
    | cons y ys => simp [clLe] at h2
  | cons x xs ih =>
    cases b with
    | nil => simp [clLe] at h1
    | cons y ys =>
      by_cases hxy : x = y
      · subst hxy
        simp only [clLe, if_pos rfl] at h1 h2
        rw [ih ys h1 h2]
      · simp only [clLe, if_neg hxy] at h1
        simp only [clLe, if_neg (Ne.symm hxy)] at h2
        exact absurd (of_decide_eq_true h2) (not_lt_of_lt (of_decide_eq_true h1))

theorem strLe_refl (a : String) : strLe a a = true := clLe_refl a.data

theorem strLe_total (a b : String) : strLe a b = true ∨ strLe b a = true :=
  clLe_total a.data b.data

theorem strLe_trans (a b c : String) (h1 : strLe a b = true)
    (h2 : strLe b c = true) : strLe a c = true :=
  clLe_trans a.data b.data c.data h1 h2

theorem strLe_antisymm (a b : String) (h1 : strLe a b = true)
    (h2 : strLe b a = true) : a = b := by
  have h := clLe_antisymm a.data b.data h1 h2
  cases a
  cases b
  exact congrArg String.mk h

theorem pairLe_total (a b : String × String) :
    pairLe a b = true ∨ pairLe b a = true := by
  by_cases h : a.1 = b.1
  · simp only [pairLe, if_pos h, if_pos h.symm]
    exact strLe_total a.2 b.2
  · simp only [pairLe, if_neg h, if_neg (Ne.symm h)]
    exact strLe_total a.1 b.1

theorem pairLe_trans (a b c : String × String) (h1 : pairLe a b = true)
    (h2 : pairLe b c = true) : pairLe a c = true := by
  by_cases hab : a.1 = b.1 <;> by_cases hbc : b.1 = c.1
  · rw [pairLe, if_pos hab] at h1
    rw [pairLe, if_pos hbc] at h2
    rw [pairLe, if_pos (hab.trans hbc)]
    exact strLe_trans _ _ _ h1 h2
  · rw [pairLe, if_pos hab] at h1
    rw [pairLe, if_neg hbc] at h2
    rw [pairLe, if_neg (hab ▸ hbc), hab]
    exact h2
  · rw [pairLe, if_neg hab] at h1
    rw [pairLe, if_pos hbc] at h2
    rw [pairLe, if_neg (hbc ▸ hab), ← hbc]
    exact h1
  · rw [pairLe, if_neg hab] at h1
    rw [pairLe, if_neg hbc] at h2
    have hac : strLe a.1 c.1 = true := strLe_trans _ _ _ h1 h2
    by_cases h : a.1 = c.1
    · exact absurd (strLe_antisymm _ _ h1 (h ▸ h2)) hab
    · rw [pairLe, if_neg h]
      exact hac

/-- In a chain-sorted list, the last element dominates every member. -/
theorem chainLe_le_getLast {α : Type} (le : α → α → Bool)
    (hrefl : ∀ a, le a a = true) (l : List α) (h : ChainLe le l)
    (x : α) (hx : l.getLast? = some x) : ∀ y ∈ l, le y x = true := by
  induction l with
  | nil => cases hx
  | cons z zs ih =>
    rw [ChainLe, List.pairwise_cons] at h
    cases zs with
    | nil =>
      intro y hy
      have hyz : y = z := by simpa using hy
      have hxz : x = z := by
        simp only [List.getLast?_singleton, Option.some_inj] at hx
        exact hx.symm
      rw [hyz, hxz]
      exact hrefl z
    | cons w ws =>
      rw [List.getLast?_cons_cons] at hx
      intro y hy
      rcases List.mem_cons.mp hy with hy | hy
      · subst hy
        exact h.1 x (List.mem_of_mem_getLast? (by rw [hx]; rfl))
      · exact ih h.2 hx y hy

theorem mem_dedupKeep {α : Type} [DecidableEq α] (l : List α) (z : α) :
    z ∈ dedupKeep l ↔ z ∈ l := by
  have h : dedupKeep l = mergeL [] l := rfl
  rw [h, mem_mergeL]
  simp

/-! ## Claim C3: URL kinds in LineParser.resolve -/

theorem endsW_url_ne_empty (t : String) (h : endsW t ":url" = true) : t ≠ "" := by
  rintro rfl
  exact absurd h (by decide)

theorem endsW_url_not_file (t : String) (h : endsW t ":url" = true) :
    endsW t ":file" = false := by
  cases hf : endsW t ":file" with
  | false => rfl
  | true =>
    have h4 : t.data.reverse.take ":url".data.length = ":url".data.reverse :=
      of_decide_eq_true h
    have h5 : t.data.reverse.take ":file".data.length = ":file".data.reverse :=
      of_decide_eq_true hf
    have hlen4 : ":url".data.length = 4 := rfl
    have hlen5 : ":file".data.length = 5 := rfl
    rw [hlen4] at h4
    rw [hlen5] at h5
    have hc := congrArg (List.take 4) h5
    rw [List.take_take] at hc
    have hmin : (4 : Nat) ⊓ 5 = 4 := rfl
    rw [hmin, h4] at hc
    exact absurd hc (by decide)

/-- Claim C3, amended.  For a dependency item whose kind ends in ":url",
LineParser.resolve returns the one-element list holding exactly the input
item; the result does not depend on the filesystem, and the only
filesystem operation performed is the unconditional os.path.isdir probe
of the context path made while building the search-directory list
(core.py 116). -/
theorem claim_C3_url_passthrough (fs : FS) (item : Item) (path : String)
    (dirs0 : List String) (h : endsW item.1 ":url" = true) :
    resolveT fs item path dirs0 = ([item], [FsOp.dirq path]) := by
  obtain ⟨t, name⟩ := item
  simp only at h
  have hne : t ≠ "" := endsW_url_ne_empty t h
  have h0 : ¬ (t = "" ∨ t = "js:module") := by
    rintro (rfl | rfl)
    · exact hne rfl
    · exact absurd h (by decide)
  have h1 : ¬ (t = "" ∨ t = "js:gmodule") := by
    rintro (rfl | rfl)
    · exact hne rfl
    · exact absurd h (by decide)
  have h2 : ¬ (t = "" ∨ t = "css:module") := by
    rintro (rfl | rfl)
    · exact hne rfl
    · exact absurd h (by decide)
  have h3 : ¬ (t = "" ∨ endsW t ":file" = true) := by
    rintro (rfl | hf)
    · exact hne rfl
    · rw [endsW_url_not_file t h] at hf
      cases hf
  have h4 : t ≠ "" ∧ endsW t ":url" = true := ⟨hne, h⟩
  simp only [resolveT, if_neg h0, if_neg h1, if_neg h2, if_neg h3, if_pos h4,
    lineResolveHook]
  simp [dedupKeep]

/-- An all-empty filesystem used for concrete evaluations. -/
def fsEmpty : FS := ⟨fun _ => false, fun _ => false, fun _ => [], "/cwd"⟩

/-- Counterexample to claim C3 as stated: resolving a css:url item does
perform a filesystem access, namely the os.path.isdir probe of the
context path (core.py 116), so the trace of filesystem operations is not
empty. -/
theorem claim_C3_counterexample :
    (resolveT fsEmpty ("css:url", "http://x/y.css") "w/p.paml" []).2 ≠ [] := by
  have h : (resolveT fsEmpty ("css:url", "http://x/y.css") "w/p.paml" []).2 =
      [FsOp.dirq "w/p.paml"] := rfl
  rw [h]
  simp

/-- Witness for C3 (amended): a concrete css:url item passes through
unchanged, with the directory probe of the context path as the only
filesystem operation. -/
theorem claim_C3_witness :
    endsW "css:url" ":url" = true ∧
    resolveT fsEmpty ("css:url", "u") "p" [] =
      ([("css:url", "u")], [FsOp.dirq "p"]) :=
  ⟨by decide, claim_C3_url_passthrough fsEmpty ("css:url", "u") "p" [] (by decide)⟩

/-! ## Claim C6: preferred-format module resolution -/

theorem isort_ne_nil {α : Type} (le : α → α → Bool) (l : List α) (h : l ≠ []) :
    isort le l ≠ [] := by
  obtain ⟨x, hx⟩ := List.exists_mem_of_ne_nil l h
  exact List.ne_nil_of_mem ((mem_isort le l x).mpr hx)

/-- Claim C6.  When LineParser.resolve handles the module kind
"js:module": if any preferred-format (.sjs) candidate exists, the result
consists of exactly the preferred-format candidates (all of them, tagged
"sjs:module") and hence contains no plain-format fallback; if no
preferred candidate exists but plain-format (name-*.js) candidates do,
the result is the single pair ("js:module", p) where p is the
lexicographically last plain candidate. -/
theorem claim_C6_preferred_format (fs : FS) (path : String)
    (dirs0 : List String) (name : String) :
    (sjsModCandidates fs (resolveDirs fs path dirs0) (dotToSlash name) ≠ [] →
      (∀ c, c ∈ (resolveT fs ("js:module", name) path dirs0).1 ↔
        c ∈ (sjsModCandidates fs (resolveDirs fs path dirs0)
              (dotToSlash name)).map
            (fun p => (("sjs:module" : String), p))) ∧
      ∀ c ∈ (resolveT fs ("js:module", name) path dirs0).1,
        c.1 = "sjs:module") ∧
    (sjsModCandidates fs (resolveDirs fs path dirs0) (dotToSlash name) = [] →
     jsModCandidates fs (resolveDirs fs path dirs0) (dotToSlash name) ≠ [] →
      ∃ p, (resolveT fs ("js:module", name) path dirs0).1 =
            [("js:module", p)] ∧
        p ∈ jsModCandidates fs (resolveDirs fs path dirs0) (dotToSlash name) ∧
        ∀ q ∈ jsModCandidates fs (resolveDirs fs path dirs0) (dotToSlash name),
          strLe q p = true) := by
  have hb2 : ¬ (("js:module" : String) = "" ∨ ("js:module" : String) = "js:gmodule") := by
    decide
  have hb3 : ¬ (("js:module" : String) = "" ∨ ("js:module" : String) = "css:module") := by
    decide
  have hb4 : ¬ (("js:module" : String) = "" ∨ endsW "js:module" ":file" = true) := by
    decide
  have hb5 : ¬ (("js:module" : String) ≠ "" ∧ endsW "js:module" ":url" = true) := by
    decide
  simp only [resolveT, or_true, if_true, if_neg hb2, if_neg hb3, if_neg hb4,
    if_neg hb5, lineResolveHook]
  set dirs := resolveDirs fs path dirs0 with hdirs
  set nm := dotToSlash name with hnm
  set S := sjsModCandidates fs dirs nm with hS
  set J := jsModCandidates fs dirs nm with hJ
  constructor
  · intro hSne
    have hsortne : isort pairLe (S.map (fun p => (("sjs:module" : String), p))) ≠ [] := by
      apply isort_ne_nil
      simpa using hSne
    constructor
    · intro c
      rw [pickPreferred, if_pos hsortne, mem_dedupKeep, mem_isort]
    · intro c hc
      rw [pickPreferred, if_pos hsortne, mem_dedupKeep, mem_isort] at hc
      obtain ⟨p, -, hp2⟩ := List.mem_map.mp hc
      rw [← hp2]
  · intro hSnil hJne
    have hsnil : isort pairLe (S.map (fun p => (("sjs:module" : String), p))) = [] := by
      rw [hSnil]
      rfl
    have hJmapne : J.map (fun p => (("js:module" : String), p)) ≠ [] := by
      simpa using hJne
    have hjsortne : isort pairLe (J.map (fun p => (("js:module" : String), p))) ≠ [] :=
      isort_ne_nil _ _ hJmapne
    obtain ⟨x, hx⟩ := Option.isSome_iff_exists.mp
      (List.getLast?_isSome.mpr hjsortne)
    have hxmem : x ∈ isort pairLe (J.map (fun p => (("js:module" : String), p))) :=
      List.mem_of_mem_getLast? (by rw [hx]; rfl)
    have hxmem' : x ∈ J.map (fun p => (("js:module" : String), p)) :=
      (mem_isort _ _ x).mp hxmem
    obtain ⟨p, hpJ, hpx⟩ := List.mem_map.mp hxmem'
    refine ⟨p, ?_, hpJ, ?_⟩
    · rw [pickPreferred, if_neg (fun hcon => hcon hsnil), hx, ← hpx]
      rfl
    · intro q hq
      have hqmem : (("js:module" : String), q) ∈
          isort pairLe (J.map (fun p => (("js:module" : String), p))) :=
        (mem_isort _ _ _).mpr (List.mem_map.mpr ⟨q, hq, rfl⟩)
      have hchain := chainLe_isort pairLe pairLe_total pairLe_trans
        (J.map (fun p => (("js:module" : String), p)))
      have hle := chainLe_le_getLast pairLe
        (fun a => by rw [pairLe, if_pos rfl]; exact strLe_refl a.2)
        _ hchain x hx _ hqmem
      rw [← hpx] at hle
      rw [pairLe, if_pos rfl] at hle
      exact hle

/-- A filesystem in which every sjs glob pattern matches lib/m.sjs and
every other pattern matches a plain x-1.js build artifact. -/
def fsW6 : FS :=
  ⟨fun _ => false, fun _ => false,
   fun pat => if endsW pat ".sjs" then ["lib/m.sjs"] else ["x-1.js"], "/cw"⟩

/-- Witness for C6: with both a preferred-format and a plain-format
candidate present, resolution returns the preferred .sjs file and every
returned candidate is an sjs:module, never the plain fallback. -/
theorem claim_C6_witness :
    sjsModCandidates fsW6 (resolveDirs fsW6 "p.js" []) (dotToSlash "a") ≠ [] ∧
    (("sjs:module", "lib/m.sjs") ∈ (resolveT fsW6 ("js:module", "a") "p.js" []).1) ∧
    ∀ c ∈ (resolveT fsW6 ("js:module", "a") "p.js" []).1, c.1 = "sjs:module" := by
  have h := (claim_C6_preferred_format fsW6 "p.js" [] "a").1 (by decide)
  exact ⟨by decide, (h.1 _).mpr (by decide), h.2⟩

/-! ## The load-order sorter (Tracker._sortRequires, core.py 534-553) -/

/-- Python self.nodes.get(m) or (): the adjacency of m, empty when m is
not a key (an empty stored list also iterates as empty). -/
def nodesGet (nodes : List (Item × List Item)) (m : Item) : List Item :=
  (lookupA nodes m).getD []

/-- The inner load() closure of _sortRequires (core.py 539-550), written
with an explicit fuel argument standing for the recursion depth (the
stabilization theorem below shows that the fuel chosen by sortRequires is
never exhausted).  One call: early-return when the module is already
loaded; otherwise provisionally append it, walk its adjacency skipping a
direct self-loop, delete the provisional entry at its recorded index, and
re-append the module at the end when absent. -/
def load (nodes : List (Item × List Item)) : Nat → Item → List Item → List Item
  | 0, _, loaded => loaded
  | fuel + 1, m, loaded =>
    if m ∈ loaded then loaded
    else
      let l2 := (nodesGet nodes m).foldl
        (fun acc r => if r = m then acc else load nodes fuel r acc)
        (loaded ++ [m])
      let l3 := l2.eraseIdx loaded.length
      if m ∈ l3 then l3 else l3 ++ [m]

/-- Every item mentioned by the sorter's input: the seed requirements,
the adjacency keys and the adjacency values. -/
def sortUniverse (nodes : List (Item × List Item)) (req : List Item) :
    Finset Item :=
  (req ++ nodes.map Prod.fst ++ nodes.flatMap Prod.snd).toFinset

/-- _sortRequires with explicit fuel: seeds sorted ascending by direct
dependency count (a stable sort, as Python's sorted), then one load walk
per seed against the shared accumulator. -/
def sortRequiresF (nodes : List (Item × List Item)) (req : List Item)
    (fuel : Nat) : List Item :=
  let sortedReq := isort
    (fun a b =>
      decide ((nodesGet nodes a).length ≤ (nodesGet nodes b).length)) req
  sortedReq.foldl (fun loaded m => load nodes fuel m loaded) []

/-- Tracker._sortRequires: the fuel value one past the universe size is
enough for every load walk, as proved below. -/
def sortRequires (nodes : List (Item × List Item)) (req : List Item) :
    List Item :=
  sortRequiresF nodes req ((sortUniverse nodes req).card + 1)

/-- One edge of the requirement graph as traversed by load: a direct
dependency that is not a self-loop. -/
def SStep (nodes : List (Item × List Item)) (a b : Item) : Prop :=
  b ∈ nodesGet nodes a ∧ b ≠ a

/-- Transitive reachability through the nodes adjacency (reflexive, and
closed under non-self direct dependencies). -/
def Reach (nodes : List (Item × List Item)) : Item → Item → Prop :=
  Relation.ReflTransGen (SStep nodes)

theorem eraseIdx_append_cons {α : Type} (l t : List α) (x : α) :
    (l ++ x :: t).eraseIdx l.length = l ++ t := by
  induction l with
  | nil => rfl
  | cons a as ih => simp [List.eraseIdx, ih]

theorem foldl_extends {α β : Type} (f : List α → β → List α)
    (hf : ∀ acc r, ∃ t, f acc r = acc ++ t) (ds : List β) :
    ∀ acc, ∃ t, ds.foldl f acc = acc ++ t := by
  induction ds with
  | nil => exact fun acc => ⟨[], by simp⟩
  | cons d ds ih =>
    intro acc
    obtain ⟨t1, h1⟩ := hf acc d
    obtain ⟨t2, h2⟩ := ih (f acc d)
    exact ⟨t1 ++ t2, by rw [List.foldl_cons, h2, h1, List.append_assoc]⟩

theorem load_pfx (nodes : List (Item × List Item)) :
    ∀ fuel m loaded, ∃ t, load nodes fuel m loaded = loaded ++ t := by
  intro fuel
  induction fuel with
  | zero => exact fun m loaded => ⟨[], by simp [load]⟩
  | succ fuel ih =>
    intro m loaded
    by_cases hm : m ∈ loaded
    · exact ⟨[], by simp [load, hm]⟩
    · obtain ⟨s, hs⟩ := foldl_extends
        (fun acc r => if r = m then acc else load nodes fuel r acc)
        (fun acc r => by
          by_cases hr : r = m
          · exact ⟨[], by simp [hr]⟩
          · obtain ⟨t, ht⟩ := ih r acc
            exact ⟨t, by simp [hr, ht]⟩)
        (nodesGet nodes m) (loaded ++ [m])
      simp only [load, if_neg hm]
      rw [hs, List.append_assoc, List.singleton_append, eraseIdx_append_cons]
      by_cases h3 : m ∈ loaded ++ s
      · exact ⟨s, by rw [if_pos h3]⟩
      · exact ⟨s ++ [m], by rw [if_neg h3, List.append_assoc]⟩

theorem mem_load_of_mem (nodes : List (Item × List Item)) (fuel : Nat)
    (m : Item) (loaded : List Item) (x : Item) (hx : x ∈ loaded) :
    x ∈ load nodes fuel m loaded := by
  obtain ⟨t, ht⟩ := load_pfx nodes fuel m loaded
  rw [ht]
  exact List.mem_append_left t hx

theorem load_nodup (nodes : List (Item × List Item)) :
    ∀ fuel m loaded, loaded.Nodup → (load nodes fuel m loaded).Nodup := by
  intro fuel
  induction fuel with
  | zero => exact fun m loaded h => by simpa [load] using h
  | succ fuel ih =>
    intro m loaded hnd
    by_cases hm : m ∈ loaded
    · simp only [load, if_pos hm]
      exact hnd
    · have hl1 : (loaded ++ [m]).Nodup := by
        rw [List.nodup_append]
        exact ⟨hnd, List.nodup_singleton m, by simpa using hm⟩
      have hfold : ∀ (ds acc : List Item), acc.Nodup →
          (ds.foldl (fun acc r => if r = m then acc else load nodes fuel r acc)
            acc).Nodup := by
        intro ds
        induction ds with
        | nil => exact fun acc h => h
        | cons d ds ihd =>
          intro acc hacc
          rw [List.foldl_cons]
          apply ihd
          by_cases hd : d = m
          · simpa [hd] using hacc
          · simpa [hd] using ih d acc hacc
      have hl2 := hfold (nodesGet nodes m) (loaded ++ [m]) hl1
      have hl3 : ((((nodesGet nodes m).foldl
          (fun acc r => if r = m then acc else load nodes fuel r acc)
          (loaded ++ [m])).eraseIdx loaded.length)).Nodup :=
        (List.eraseIdx_sublist _ loaded.length).nodup hl2
      simp only [load, if_neg hm]
      by_cases h3 : m ∈ ((nodesGet nodes m).foldl
          (fun acc r => if r = m then acc else load nodes fuel r acc)
          (loaded ++ [m])).eraseIdx loaded.length
      · simpa [h3] using hl3
      · rw [if_neg h3, List.nodup_append]
        exact ⟨hl3, List.nodup_singleton m, by simpa using h3⟩

theorem self_mem_load (nodes : List (Item × List Item)) (fuel : Nat)
    (m : Item) (loaded : List Item) : m ∈ load nodes (fuel + 1) m loaded := by
  by_cases hm : m ∈ loaded
  · simp [load, hm]
  · simp only [load, if_neg hm]
    by_cases h3 : m ∈ ((nodesGet nodes m).foldl
        (fun acc r => if r = m then acc else load nodes fuel r acc)
        (loaded ++ [m])).eraseIdx loaded.length
    · simp [h3]
    · rw [if_neg h3]
      simp

theorem load_subset_reach (nodes : List (Item × List Item)) :
    ∀ fuel m loaded x, x ∈ load nodes fuel m loaded →
      x ∈ loaded ∨ Reach nodes m x := by
  intro fuel
  induction fuel with
  | zero =>
    intro m loaded x hx
    rw [load] at hx
    exact Or.inl hx
  | succ fuel ih =>
    intro m loaded x hx
    by_cases hm : m ∈ loaded
    · rw [load, if_pos hm] at hx
      exact Or.inl hx
    · have hfold : ∀ (ds acc : List Item), (∀ r ∈ ds, r ∈ nodesGet nodes m) →
          (∀ y ∈ acc, y ∈ loaded ∨ Reach nodes m y) →
          ∀ y ∈ ds.foldl
            (fun acc r => if r = m then acc else load nodes fuel r acc) acc,
            y ∈ loaded ∨ Reach nodes m y := by
        intro ds
        induction ds with
        | nil => exact fun acc _ hacc => hacc
        | cons d ds ihd =>
          intro acc hds hacc
          rw [List.foldl_cons]
          apply ihd _ (fun r hr => hds r (List.mem_cons_of_mem d hr))
          intro y hy
          by_cases hd : d = m
          · rw [if_pos hd] at hy
            exact hacc y hy
          · rw [if_neg hd] at hy
            rcases ih d acc y hy with h | h
            · exact hacc y h
            · right
              exact Relation.ReflTransGen.head
                ⟨hds d (List.mem_cons_self d ds), hd⟩ h
      have hbase : ∀ y ∈ loaded ++ [m], y ∈ loaded ∨ Reach nodes m y := by
        intro y hy
        rcases List.mem_append.mp hy with h | h
        · exact Or.inl h
        · right
          rw [List.mem_singleton.mp h]
          exact Relation.ReflTransGen.refl
      have hl2 := hfold (nodesGet nodes m) (loaded ++ [m]) (fun r hr => hr) hbase
      rw [load, if_neg hm] at hx
      by_cases h3 : m ∈ ((nodesGet nodes m).foldl
          (fun acc r => if r = m then acc else load nodes fuel r acc)
          (loaded ++ [m])).eraseIdx loaded.length
      · rw [if_pos h3] at hx
        exact hl2 x ((List.eraseIdx_sublist _ loaded.length).mem hx)
      · rw [if_neg h3] at hx
        rcases List.mem_append.mp hx with h | h
        · exact hl2 x ((List.eraseIdx_sublist _ loaded.length).mem h)
        · right
          rw [List.mem_singleton.mp h]
          exact Relation.ReflTransGen.refl

/-- The cards of the not-yet-loaded parts shrink strictly when a fresh
universe member is appended. -/
theorem filter_card_append_lt (U : Finset Item) (loaded : List Item) (m : Item)
    (hmU : m ∈ U) (hm : m ∉ loaded) :
    (U.filter (fun x => x ∉ loaded ++ [m])).card <
      (U.filter (fun x => x ∉ loaded)).card := by
  apply Finset.card_lt_card
  rw [Finset.ssubset_iff_of_subset]
  · refine ⟨m, Finset.mem_filter.mpr ⟨hmU, hm⟩, ?_⟩
    intro hcon
    exact (Finset.mem_filter.mp hcon).2 (List.mem_append_right loaded (by simp))
  · intro x hx
    rw [Finset.mem_filter] at hx ⊢
    refine ⟨hx.1, fun hcon => hx.2 (List.mem_append_left [m] hcon)⟩

/-- Growing the accumulator can only shrink the not-yet-loaded part. -/
theorem filter_card_mono (U : Finset Item) (a b : List Item)
    (hab : ∀ x ∈ a, x ∈ b) :
    (U.filter (fun x => x ∉ b)).card ≤ (U.filter (fun x => x ∉ a)).card := by
  apply Finset.card_le_card
  intro x hx
  rw [Finset.mem_filter] at hx ⊢
  exact ⟨hx.1, fun hcon => hx.2 (hab x hcon)⟩

/-- Soundness and completeness of one load walk at adequate fuel: the
result stays inside the universe, contains the requested module, and is
closed under the non-self adjacency of every newly loaded module. -/
theorem load_complete (nodes : List (Item × List Item)) (U : Finset Item)
    (hU : ∀ a r, r ∈ nodesGet nodes a → r ∈ U) :
    ∀ fuel m loaded, m ∈ U → (∀ x ∈ loaded, x ∈ U) → loaded.Nodup →
      (U.filter (fun x => x ∉ loaded)).card < fuel →
      (∀ x ∈ load nodes fuel m loaded, x ∈ U) ∧
      m ∈ load nodes fuel m loaded ∧
      (∀ x ∈ load nodes fuel m loaded, x ∉ loaded →
        ∀ r ∈ nodesGet nodes x, r ≠ x → r ∈ load nodes fuel m loaded) := by
  intro fuel
  induction fuel with
  | zero =>
    intro m loaded _ _ _ hcard
    exact absurd hcard (Nat.not_lt_zero _)
  | succ fuel ih =>
    intro m loaded hmU hldU hnd hcard
    by_cases hm : m ∈ loaded
    · simp only [load, if_pos hm]
      exact ⟨hldU, hm, fun x hx hnx => absurd hx hnx⟩
    · have hl1U : ∀ x ∈ loaded ++ [m], x ∈ U := by
        intro x hx
        rcases List.mem_append.mp hx with h | h
        · exact hldU x h
        · rw [List.mem_singleton.mp h]; exact hmU
      have hl1nd : (loaded ++ [m]).Nodup := by
        rw [List.nodup_append]
        exact ⟨hnd, List.nodup_singleton m, by simpa using hm⟩
      have hl1card : (U.filter (fun x => x ∉ loaded ++ [m])).card < fuel :=
        Nat.lt_of_lt_of_le (filter_card_append_lt U loaded m hmU hm)
          (Nat.lt_succ_iff.mp hcard)
      have hstepext : ∀ (acc : List Item) (r : Item),
          ∃ t, (if r = m then acc else load nodes fuel r acc) = acc ++ t := by
        intro acc r
        by_cases hr : r = m
        · exact ⟨[], by simp [hr]⟩
        · obtain ⟨t, ht⟩ := load_pfx nodes fuel r acc
          exact ⟨t, by simp [hr, ht]⟩
      have hfoldmem : ∀ (ds acc : List Item) (x : Item), x ∈ acc →
          x ∈ ds.foldl (fun acc r => if r = m then acc else load nodes fuel r acc)
            acc := by
        intro ds acc x hx
        obtain ⟨t, ht⟩ := foldl_extends _ hstepext ds acc
        rw [ht]
        exact List.mem_append_left t hx
      have hfold : ∀ (ds acc : List Item), (∀ r ∈ ds, r ∈ nodesGet nodes m) →
          (∀ x ∈ acc, x ∈ U) → acc.Nodup →
          (U.filter (fun x => x ∉ acc)).card < fuel →
          (∀ x ∈ acc, x ∉ loaded ++ [m] →
            ∀ r ∈ nodesGet nodes x, r ≠ x → r ∈ acc) →
          (∀ x ∈ ds.foldl
              (fun acc r => if r = m then acc else load nodes fuel r acc) acc,
            x ∈ U) ∧
          (ds.foldl
            (fun acc r => if r = m then acc else load nodes fuel r acc)
            acc).Nodup ∧
          ((U.filter (fun x => x ∉ ds.foldl
              (fun acc r => if r = m then acc else load nodes fuel r acc)
              acc)).card < fuel) ∧
          (∀ x ∈ ds.foldl
              (fun acc r => if r = m then acc else load nodes fuel r acc) acc,
            x ∉ loaded ++ [m] → ∀ r ∈ nodesGet nodes x, r ≠ x →
              r ∈ ds.foldl
                (fun acc r => if r = m then acc else load nodes fuel r acc)
                acc) ∧
          (∀ r ∈ ds, r ≠ m → r ∈ ds.foldl
              (fun acc r => if r = m then acc else load nodes fuel r acc)
              acc) := by
        intro ds
        induction ds with
        | nil =>
          intro acc _ hU' hnd' hcard' hcl'
          exact ⟨hU', hnd', hcard', hcl', by simp⟩
        | cons d ds ihd =>
          intro acc hds hUacc hndacc hcardacc hclacc
          rw [List.foldl_cons]
          by_cases hd : d = m
          · rw [if_pos hd]
            obtain ⟨c1, c2, c3, c4, c5⟩ := ihd acc
              (fun r hr => hds r (List.mem_cons_of_mem d hr))
              hUacc hndacc hcardacc hclacc
            refine ⟨c1, c2, c3, c4, ?_⟩
            intro r hr hrm
            rcases List.mem_cons.mp hr with h | h
            · exact absurd (h.trans hd) hrm
            · exact c5 r h hrm
          · rw [if_neg hd]
            have hdU : d ∈ U := hU m d (hds d (List.mem_cons_self d ds))
            obtain ⟨iU, imem, icl⟩ := ih d acc hdU hUacc hndacc hcardacc
            have hext : ∀ x ∈ acc, x ∈ load nodes fuel d acc :=
              fun x hx => mem_load_of_mem nodes fuel d acc x hx
            have hnd' : (load nodes fuel d acc).Nodup :=
              load_nodup nodes fuel d acc hndacc
            have hcard' : (U.filter
                (fun x => x ∉ load nodes fuel d acc)).card < fuel :=
              Nat.lt_of_le_of_lt (filter_card_mono U acc _ hext) hcardacc
            have hcl' : ∀ x ∈ load nodes fuel d acc, x ∉ loaded ++ [m] →
                ∀ r ∈ nodesGet nodes x, r ≠ x → r ∈ load nodes fuel d acc := by
              intro x hx hxl1 r hr hrx
              by_cases hxa : x ∈ acc
              · exact hext r (hclacc x hxa hxl1 r hr hrx)
              · exact icl x hx hxa r hr hrx
            obtain ⟨c1, c2, c3, c4, c5⟩ := ihd (load nodes fuel d acc)
              (fun r hr => hds r (List.mem_cons_of_mem d hr))
              iU hnd' hcard' hcl'
            refine ⟨c1, c2, c3, c4, ?_⟩
            intro r hr hrm
            rcases List.mem_cons.mp hr with h | h
            · rw [h]
              exact hfoldmem ds _ d imem
            · exact c5 r h hrm
      have hl1cl : ∀ x ∈ loaded ++ [m], x ∉ loaded ++ [m] →
          ∀ r ∈ nodesGet nodes x, r ≠ x → r ∈ loaded ++ [m] :=
        fun x hx hnx => absurd hx hnx
      obtain ⟨f1, f2, f3, f4, f5⟩ := hfold (nodesGet nodes m) (loaded ++ [m])
        (fun r hr => hr) hl1U hl1nd hl1card hl1cl
      obtain ⟨s, hs⟩ := foldl_extends _ hstepext (nodesGet nodes m) (loaded ++ [m])
      have hshape : (nodesGet nodes m).foldl
          (fun acc r => if r = m then acc else load nodes fuel r acc)
          (loaded ++ [m]) = loaded ++ m :: s := by
        rw [hs, List.append_assoc, List.singleton_append]
      have hl2nd : (loaded ++ m :: s).Nodup := hshape ▸ f2
      have hm3 : m ∉ loaded ++ s := by
        have := List.nodup_middle.mp hl2nd
        rw [List.nodup_cons] at this
        exact this.1
      have herase : ((nodesGet nodes m).foldl
          (fun acc r => if r = m then acc else load nodes fuel r acc)
          (loaded ++ [m])).eraseIdx loaded.length = loaded ++ s := by
        rw [hshape, eraseIdx_append_cons]
      have hresult : load nodes (fuel + 1) m loaded = (loaded ++ s) ++ [m] := by
        simp only [load, if_neg hm]
        rw [herase, if_neg hm3]
      have hresiff : ∀ y, y ∈ load nodes (fuel + 1) m loaded ↔
          y ∈ loaded ++ m :: s := by
        intro y
        rw [hresult]
        simp only [List.mem_append, List.mem_cons, List.mem_singleton]
        tauto
      refine ⟨?_, ?_, ?_⟩
      · intro x hx
        exact f1 x (hshape ▸ (hresiff x).mp hx)
      · exact (hresiff m).mpr (by simp)
      · intro x hx hxl r hr hrx
        have hxl2 : x ∈ loaded ++ m :: s := (hresiff x).mp hx
        by_cases hxm : x = m
        · subst hxm
          exact (hresiff r).mpr (hshape ▸ f5 r hr hrx)
        · have hxl1 : x ∉ loaded ++ [m] := by
            intro hcon
            rcases List.mem_append.mp hcon with h | h
            · exact hxl h
            · exact hxm (List.mem_singleton.mp h)
          refine (hresiff r).mpr (hshape ▸ f4 x ?_ hxl1 r hr hrx)
          rw [hshape]
          exact hxl2

/-- At any two adequate fuels a load walk computes the same list: the
recursion of the Python closure is finite and the fuel embedding is
exact. -/
theorem load_stable (nodes : List (Item × List Item)) (U : Finset Item)
    (hU : ∀ a r, r ∈ nodesGet nodes a → r ∈ U) :
    ∀ f1 f2 m loaded, m ∈ U → (∀ x ∈ loaded, x ∈ U) → loaded.Nodup →
      (U.filter (fun x => x ∉ loaded)).card < f1 →
      (U.filter (fun x => x ∉ loaded)).card < f2 →
      load nodes f1 m loaded = load nodes f2 m loaded := by
  intro f1
  induction f1 with
  | zero =>
    intro f2 m loaded _ _ _ h1 _
    exact absurd h1 (Nat.not_lt_zero _)
  | succ f1 ih =>
    intro f2 m loaded hmU hldU hnd h1 h2
    cases f2 with
    | zero => exact absurd h2 (Nat.not_lt_zero _)
    | succ f2 =>
      by_cases hm : m ∈ loaded
      · simp [load, hm]
      · have hl1U : ∀ x ∈ loaded ++ [m], x ∈ U := by
          intro x hx
          rcases List.mem_append.mp hx with h | h
          · exact hldU x h
          · rw [List.mem_singleton.mp h]; exact hmU
        have hl1nd : (loaded ++ [m]).Nodup := by
          rw [List.nodup_append]
          exact ⟨hnd, List.nodup_singleton m, by simpa using hm⟩
        have hl1card1 : (U.filter (fun x => x ∉ loaded ++ [m])).card < f1 :=
          Nat.lt_of_lt_of_le (filter_card_append_lt U loaded m hmU hm)
            (Nat.lt_succ_iff.mp h1)
        have hl1card2 : (U.filter (fun x => x ∉ loaded ++ [m])).card < f2 :=
          Nat.lt_of_lt_of_le (filter_card_append_lt U loaded m hmU hm)
            (Nat.lt_succ_iff.mp h2)
        have hfold : ∀ (ds acc : List Item), (∀ r ∈ ds, r ∈ nodesGet nodes m) →
            (∀ x ∈ acc, x ∈ U) → acc.Nodup →
            (U.filter (fun x => x ∉ acc)).card < f1 →
            (U.filter (fun x => x ∉ acc)).card < f2 →
            ds.foldl (fun acc r => if r = m then acc else load nodes f1 r acc)
              acc =
            ds.foldl (fun acc r => if r = m then acc else load nodes f2 r acc)
              acc := by
          intro ds
          induction ds with
          | nil => intro acc _ _ _ _ _; rfl
          | cons d ds ihd =>
            intro acc hds hUacc hndacc hc1 hc2
            rw [List.foldl_cons, List.foldl_cons]
            by_cases hd : d = m
            · rw [if_pos hd, if_pos hd]
              exact ihd acc (fun r hr => hds r (List.mem_cons_of_mem d hr))
                hUacc hndacc hc1 hc2
            · rw [if_neg hd, if_neg hd]
              have hdU : d ∈ U := hU m d (hds d (List.mem_cons_self d ds))
              have heq : load nodes f1 d acc = load nodes f2 d acc :=
                ih f2 d acc hdU hUacc hndacc hc1 hc2
              have hUacc' : ∀ x ∈ load nodes f1 d acc, x ∈ U :=
                (load_complete nodes U hU f1 d acc hdU hUacc hndacc hc1).1
              have hndacc' : (load nodes f1 d acc).Nodup :=
                load_nodup nodes f1 d acc hndacc
              have hext : ∀ x ∈ acc, x ∈ load nodes f1 d acc :=
                fun x hx => mem_load_of_mem nodes f1 d acc x hx
              have hc1' : (U.filter
                  (fun x => x ∉ load nodes f1 d acc)).card < f1 :=
                Nat.lt_of_le_of_lt (filter_card_mono U acc _ hext) hc1
              have hc2' : (U.filter
                  (fun x => x ∉ load nodes f1 d acc)).card < f2 :=
                Nat.lt_of_le_of_lt (filter_card_mono U acc _ hext) hc2
              rw [← heq]
              exact ihd (load nodes f1 d acc)
                (fun r hr => hds r (List.mem_cons_of_mem d hr))
                hUacc' hndacc' hc1' hc2'
        simp only [load, if_neg hm]
        rw [hfold (nodesGet nodes m) (loaded ++ [m]) (fun r hr => hr)
          hl1U hl1nd hl1card1 hl1card2]

/-- A successful association-list lookup comes from a stored pair. -/
theorem lookupA_mem {κ ν : Type} [DecidableEq κ] (l : List (κ × ν)) (k : κ)
    (v : ν) (h : lookupA l k = some v) : (k, v) ∈ l := by
  induction l with
  | nil => cases h
  | cons kv rest ih =>
    obtain ⟨k', v'⟩ := kv
    rw [lookupA] at h
    by_cases hk : k' = k
    · rw [if_pos hk, Option.some_inj] at h
      rw [← hk, ← h]
      exact List.mem_cons_self _ _
    · rw [if_neg hk] at h
      exact List.mem_cons_of_mem _ (ih h)

theorem nodesGet_subset_sortUniverse (nodes : List (Item × List Item))
    (req : List Item) :
    ∀ a r, r ∈ nodesGet nodes a → r ∈ sortUniverse nodes req := by
  intro a r hr
  rw [nodesGet] at hr
  cases hl : lookupA nodes a with
  | none => rw [hl] at hr; cases hr
  | some v =>
    rw [hl] at hr
    simp only [Option.getD_some] at hr
    have hmem : (a, v) ∈ nodes := lookupA_mem nodes a v hl
    rw [sortUniverse, List.mem_toFinset]
    refine List.mem_append_right _ (List.mem_flatMap.mpr ⟨(a, v), hmem, hr⟩)

theorem req_subset_sortUniverse (nodes : List (Item × List Item))
    (req : List Item) : ∀ s ∈ req, s ∈ sortUniverse nodes req := by
  intro s hs
  rw [sortUniverse, List.mem_toFinset, List.append_assoc]
  exact List.mem_append_left _ hs

/-- The main fold of _sortRequires at adequate fuel: starting from a
well-formed accumulator, the walk of each seed keeps the output
duplicate-free, inside the universe, closed under non-self adjacency,
reachable from the requirement seeds, and containing every seed and
everything already accumulated. -/
theorem sortFold_spec (nodes : List (Item × List Item)) (req : List Item)
    (U : Finset Item) (hU : ∀ a r, r ∈ nodesGet nodes a → r ∈ U)
    (fuel : Nat) (hfuel : U.card < fuel) :
    ∀ (seeds acc : List Item), (∀ s ∈ seeds, s ∈ U) →
      (∀ s ∈ seeds, ∃ s0 ∈ req, Reach nodes s0 s) →
      acc.Nodup → (∀ x ∈ acc, x ∈ U) →
      (∀ x ∈ acc, ∀ r ∈ nodesGet nodes x, r ≠ x → r ∈ acc) →
      (∀ x ∈ acc, ∃ s0 ∈ req, Reach nodes s0 x) →
      (seeds.foldl (fun loaded m => load nodes fuel m loaded) acc).Nodup ∧
      (∀ x ∈ seeds.foldl (fun loaded m => load nodes fuel m loaded) acc,
        x ∈ U) ∧
      (∀ x ∈ seeds.foldl (fun loaded m => load nodes fuel m loaded) acc,
        ∀ r ∈ nodesGet nodes x, r ≠ x →
          r ∈ seeds.foldl (fun loaded m => load nodes fuel m loaded) acc) ∧
      (∀ x ∈ seeds.foldl (fun loaded m => load nodes fuel m loaded) acc,
        ∃ s0 ∈ req, Reach nodes s0 x) ∧
      (∀ s ∈ seeds,
        s ∈ seeds.foldl (fun loaded m => load nodes fuel m loaded) acc) ∧
      (∀ x ∈ acc,
        x ∈ seeds.foldl (fun loaded m => load nodes fuel m loaded) acc) := by
  intro seeds
  induction seeds with
  | nil =>
    intro acc _ _ hnd hUa hcl hP
    exact ⟨hnd, hUa, hcl, hP, by simp, fun x hx => hx⟩
  | cons s seeds ih =>
    intro acc hseedU hseedP hnd hUa hcl hP
    have hsU : s ∈ U := hseedU s (List.mem_cons_self s seeds)
    have hcard : (U.filter (fun x => x ∉ acc)).card < fuel :=
      Nat.lt_of_le_of_lt (Finset.card_le_card (Finset.filter_subset _ U)) hfuel
    obtain ⟨lc1, lc2, lc3⟩ := load_complete nodes U hU fuel s acc hsU hUa hnd hcard
    have hext : ∀ x ∈ acc, x ∈ load nodes fuel s acc :=
      fun x hx => mem_load_of_mem nodes fuel s acc x hx
    have hnd' : (load nodes fuel s acc).Nodup := load_nodup nodes fuel s acc hnd
    have hcl' : ∀ x ∈ load nodes fuel s acc, ∀ r ∈ nodesGet nodes x, r ≠ x →
        r ∈ load nodes fuel s acc := by
      intro x hx r hr hrx
      by_cases hxa : x ∈ acc
      · exact hext r (hcl x hxa r hr hrx)
      · exact lc3 x hx hxa r hr hrx
    have hP' : ∀ x ∈ load nodes fuel s acc, ∃ s0 ∈ req, Reach nodes s0 x := by
      intro x hx
      rcases load_subset_reach nodes fuel s acc x hx with h | h
      · exact hP x h
      · obtain ⟨s0, hs0, hrs⟩ := hseedP s (List.mem_cons_self s seeds)
        exact ⟨s0, hs0, hrs.trans h⟩
    rw [List.foldl_cons]
    obtain ⟨c1, c2, c3, c4, c5, c6⟩ := ih (load nodes fuel s acc)
      (fun x hx => hseedU x (List.mem_cons_of_mem s hx))
      (fun x hx => hseedP x (List.mem_cons_of_mem s hx))
      hnd' lc1 hcl' hP'
    refine ⟨c1, c2, c3, c4, ?_, fun x hx => c6 x (hext x hx)⟩
    intro x hx
    rcases List.mem_cons.mp hx with h | h
    · rw [h]
      exact c6 s lc2
    · exact c5 x h

/-- The full sorter fold is fuel-insensitive past the adequate bound. -/
theorem sortFold_stable (nodes : List (Item × List Item)) (U : Finset Item)
    (hU : ∀ a r, r ∈ nodesGet nodes a → r ∈ U)
    (f1 f2 : Nat) (h1 : U.card < f1) (h2 : U.card < f2) :
    ∀ (seeds acc : List Item), (∀ s ∈ seeds, s ∈ U) →
      acc.Nodup → (∀ x ∈ acc, x ∈ U) →
      seeds.foldl (fun loaded m => load nodes f1 m loaded) acc =
      seeds.foldl (fun loaded m => load nodes f2 m loaded) acc := by
  intro seeds
  induction seeds with
  | nil => intro acc _ _ _; rfl
  | cons s seeds ih =>
    intro acc hseedU hnd hUa
    have hsU : s ∈ U := hseedU s (List.mem_cons_self s seeds)
    have hcard1 : (U.filter (fun x => x ∉ acc)).card < f1 :=
      Nat.lt_of_le_of_lt (Finset.card_le_card (Finset.filter_subset _ U)) h1
    have hcard2 : (U.filter (fun x => x ∉ acc)).card < f2 :=
      Nat.lt_of_le_of_lt (Finset.card_le_card (Finset.filter_subset _ U)) h2
    have heq : load nodes f1 s acc = load nodes f2 s acc :=
      load_stable nodes U hU f1 f2 s acc hsU hUa hnd hcard1 hcard2
    rw [List.foldl_cons, List.foldl_cons, ← heq]
    exact ih (load nodes f1 s acc)
      (fun x hx => hseedU x (List.mem_cons_of_mem s hx))
      (load_nodup nodes f1 s acc hnd)
      (load_complete nodes U hU f1 s acc hsU hUa hnd hcard1).1

/-- A duplicate-free list counts each member exactly once. -/
theorem count_one_item (l : List Item) (x : Item) (hnd : l.Nodup)
    (hx : x ∈ l) : l.count x = 1 := by
  induction l with
  | nil => cases hx
  | cons a l ih =>
    rw [List.nodup_cons] at hnd
    rw [List.count_cons]
    rcases List.mem_cons.mp hx with h | h
    · subst h
      simp [List.count_eq_zero.mpr hnd.1]
    · have hax : (a == x) = false := by
        rw [beq_eq_false_iff_ne]
        intro hcon
        subst hcon
        exact hnd.1 h
      simp [ih hnd.2 h, hax]

/-- The sorter's output is duplicate-free and holds exactly the items
reachable from the seeds. -/
theorem sortRequires_spec (nodes : List (Item × List Item)) (req : List Item) :
    (sortRequires nodes req).Nodup ∧
    (∀ x, x ∈ sortRequires nodes req ↔ ∃ s ∈ req, Reach nodes s x) := by
  have hU := nodesGet_subset_sortUniverse nodes req
  have hreq := req_subset_sortUniverse nodes req
  have hseedmem : ∀ s, s ∈ isort
      (fun a b =>
        decide ((nodesGet nodes a).length ≤ (nodesGet nodes b).length)) req ↔
      s ∈ req := fun s => mem_isort _ req s
  have hspec := sortFold_spec nodes req (sortUniverse nodes req) hU
    ((sortUniverse nodes req).card + 1) (Nat.lt_succ_self _)
    (isort (fun a b =>
      decide ((nodesGet nodes a).length ≤ (nodesGet nodes b).length)) req) []
    (fun s hs => hreq s ((hseedmem s).mp hs))
    (fun s hs => ⟨s, (hseedmem s).mp hs, Relation.ReflTransGen.refl⟩)
    List.nodup_nil (by simp) (by simp) (by simp)
  obtain ⟨c1, c2, c3, c4, c5, -⟩ := hspec
  refine ⟨c1, ?_⟩
  intro x
  constructor
  · intro hx
    exact c4 x hx
  · rintro ⟨s, hs, hreach⟩
    have hsout : s ∈ sortRequires nodes req := c5 s ((hseedmem s).mpr hs)
    clear hs
    induction hreach with
    | refl => exact hsout
    | tail h1 h2 ih3 =>
      exact c3 _ ih3 _ h2.1 h2.2

/-- Claim C5.  Tracker._sortRequires terminates on every input, cyclic
graphs included: past the adequate fuel bound the fuel embedding is
constant, so the recursion tree of the Python closure is finite.  Its
output is duplicate-free and holds exactly the seed items and the items
transitively reachable from them through the nodes adjacency, each
therefore appearing exactly once. -/
theorem claim_C5_sorter_terminates_exactly_once
    (nodes : List (Item × List Item)) (req : List Item) :
    (∀ fuel, (sortUniverse nodes req).card + 1 ≤ fuel →
      sortRequiresF nodes req fuel = sortRequires nodes req) ∧
    (sortRequires nodes req).Nodup ∧
    (∀ x, x ∈ sortRequires nodes req ↔ ∃ s ∈ req, Reach nodes s x) ∧
    (∀ x, (∃ s ∈ req, Reach nodes s x) →
      (sortRequires nodes req).count x = 1) := by
  have hU := nodesGet_subset_sortUniverse nodes req
  have hreq := req_subset_sortUniverse nodes req
  have hseedmem : ∀ s, s ∈ isort
      (fun a b =>
        decide ((nodesGet nodes a).length ≤ (nodesGet nodes b).length)) req ↔
      s ∈ req := fun s => mem_isort _ req s
  obtain ⟨c1, hout⟩ := sortRequires_spec nodes req
  refine ⟨?_, c1, hout, ?_⟩
  · intro fuel hfuel
    exact sortFold_stable nodes (sortUniverse nodes req) hU fuel
      ((sortUniverse nodes req).card + 1)
      (Nat.lt_of_succ_le hfuel) (Nat.lt_succ_self _) _ []
      (fun s hs => hreq s ((hseedmem s).mp hs)) List.nodup_nil (by simp)
  · intro x hx
    exact count_one_item _ x c1 ((hout x).mpr hx)

/-- A two-node dependency cycle: A requires B and B requires A. -/
def cycNodes : List (Item × List Item) :=
  [(("js:module", "A"), [("js:module", "B")]),
   (("js:module", "B"), [("js:module", "A")])]

/-- Witness for C5: on the A/B cycle the sorter's output holds each of A
and B exactly once. -/
theorem claim_C5_witness :
    (sortRequires cycNodes
      [("js:module", "A"), ("js:module", "B")]).count ("js:module", "A") = 1 ∧
    (sortRequires cycNodes
      [("js:module", "A"), ("js:module", "B")]).count ("js:module", "B") = 1 :=
  ⟨(claim_C5_sorter_terminates_exactly_once cycNodes _).2.2.2 _
      ⟨("js:module", "A"), by simp, Relation.ReflTransGen.refl⟩,
   (claim_C5_sorter_terminates_exactly_once cycNodes _).2.2.2 _
      ⟨("js:module", "B"), by simp, Relation.ReflTransGen.refl⟩⟩

/-- Direct evaluation of the sorter on the A/B cycle: it terminates with
the dependency-first order [B, A]. -/
theorem cycNodes_eval :
    sortRequires cycNodes [("js:module", "A"), ("js:module", "B")] =
      [("js:module", "B"), ("js:module", "A")] := by
  decide


/-! ## The Tracker crawler (core.py 437-532) -/

/-- A registered parser class in the PARSERS table. -/
inductive PKind
  | paml
  | sugar
  | javascript
  | pcss
  | c
deriving DecidableEq

/-- The PARSERS registry (core.py 594-604), keyed by file extension. -/
def PARSERS_get (e : String) : Option PKind :=
  if e = "paml" then some .paml
  else if e = "sjs" then some .sugar
  else if e = "js" then some .javascript
  else if e = "pcss" then some .pcss
  else if e = "c" then some .c
  else if e = "cxx" then some .c
  else if e = "c++" then some .c
  else if e = "cpp" then some .c
  else if e = "h" then some .c
  else none

/-- path.rsplit(".", 1)[-1].lower() (core.py 491): the part after the
last dot (the whole path when there is none), lowercased. -/
def extOf (p : String) : String :=
  ⟨((p.data.reverse.takeWhile (fun c => c ≠ '.')).reverse).map Char.toLower⟩

/-- Python "+" in path. -/
def hasPlus (p : String) : Bool := p.data.contains '+'

/-- The aggregate state of a Tracker (core.py 440-446); resolved and
nodes are insertion-ordered dictionaries. -/
structure TrackerSt where
  provides : List (String × List Item)
  requires : List Item
  paths : List String
  resolved : List (Item × List String)
  nodes : List (Item × List Item)
deriving DecidableEq

/-- A fresh Tracker. -/
def TrackerSt.init : TrackerSt := ⟨[], [], [], [], []⟩

/-- Oracles for the crawl: filesystem tests, the per-format extraction
step (which may fail on a malformed declaration, as Paml's attribute
grammar does), and the candidate paths produced by parser.resolve. -/
structure TEnv where
  exist : String → Bool
  isdir : String → Bool
  extract : PKind → String → Option String →
    Except String (List Item × List Item)
  resolvePaths : PKind → Item → String → List String

/-- Instrumentation record of a crawl: the extraction of a path (with
the snapshot of visitedPaths at that moment) and a recursive visit made
on behalf of a required item. -/
inductive TEvent
  | parse (path : String) (snapshot : List String)
  | recurse (dep : Item) (target : String)
deriving DecidableEq

/-- A Python exception escaping the crawl: the NameError raised by the
composite-path branch (core.py 481 evaluates the unbound name item), or
an extraction failure for one path. -/
inductive CrawlErr
  | nameErrorItem
  | parseFailure (path : String) (msg : String)
deriving DecidableEq

/-- The running outcome of a crawl: the tracker state so far, the
instrumentation log, and the pending exception if one was thrown. -/
abbrev COut := TrackerSt × List TEvent × Option CrawlErr

/-- Python str against tuple: name in self.resolved compares the string
name with keys that are (kind, name) pairs, and a str never equals a
tuple, so the test is always False. -/
def itemEqStr (_i : Item) (_s : String) : Bool := false

/-- Tracker.resolve (core.py 524-532).  The candidate list is obtained
from the resolver oracle; the membership test on the cache uses the
item's name against the item-keyed dictionary, exactly as the source
does. -/
def trackerResolve (env : TEnv) (k : PKind) (item : Item) (path : String)
    (st : TrackerSt) : TrackerSt × List String :=
  let res := env.resolvePaths k item path
  let name := item.2
  let r1 := if st.resolved.all (fun kv => ! itemEqStr kv.1 name) then
      setA st.resolved item [] else st.resolved
  let r2 := setA r1 item (mergeL ((lookupA r1 item).getD []) res)
  ({st with resolved := r2}, res)

/-- One iteration of the candidate recursion of _fromPath (core.py
515-516): descend into a resolved candidate path, passing the required
item's kind down as the child's declared type.  A pending exception
skips the iteration, modelling the abort of the Python loop. -/
def recStep (dep : Item)
    (fp : TrackerSt → String → Option String → COut)
    (acc : COut) (q : String) : COut :=
  match acc.2.2 with
  | some _ => acc
  | none =>
    let r := fp acc.1 q (some dep.1)
    (r.1, acc.2.1 ++ TEvent.recurse dep q :: r.2.1, r.2.2)

/-- One iteration of the dependency loop of _fromPath (core.py 506-516):
skip url kinds, resolve the requirement, and when recursive descend into
every candidate path.  A pending exception skips the iteration. -/
def depStep (env : TEnv) (k : PKind) (path : String) (recursive : Bool)
    (fp : TrackerSt → String → Option String → COut)
    (acc : COut) (dep : Item) : COut :=
  match acc.2.2 with
  | some _ => acc
  | none =>
    if endsW dep.1 ":url" = true then acc
    else
      let rr := trackerResolve env k dep path acc.1
      if recursive then
        rr.2.foldl (recStep dep fp) (rr.1, acc.2.1, none)
      else (rr.1, acc.2.1, none)

/-- Tracker._fromPath (core.py 472-516) with explicit fuel bounding the
recursion depth; exhausted fuel returns the state unchanged, and every
property proved below holds at every fuel. -/
def fromPath (env : TEnv) : Nat → TrackerSt → String → Bool →
    Option String → COut
  | 0, st, _, _, _ => (st, [], none)
  | fuel + 1, st, path, recursive, type =>
    if env.exist path = false ∧ hasPlus path = true then
      (st, [], some .nameErrorItem)
    else if path ∈ st.paths then (st, [], none)
    else if env.isdir path = true then (st, [], none)
    else
      let st1 : TrackerSt := {st with paths := st.paths ++ [path]}
      match PARSERS_get (extOf path) with
      | none => (st1, [], none)
      | some k =>
        match env.extract k path type with
        | .error e =>
          (st1, [TEvent.parse path st1.paths], some (.parseFailure path e))
        | .ok (prov, reqs) =>
          let st2 : TrackerSt :=
            {st1 with provides := st1.provides ++ [(path, prov)],
                      requires := mergeL st1.requires reqs}
          let newNodes := prov.foldl
            (fun nd it => setA nd it (mergeL ((lookupA nd it).getD []) reqs))
            st2.nodes
          let st3 : TrackerSt := {st2 with nodes := newNodes}
          let r := reqs.foldl
            (depStep env k path recursive
              (fun s q ty => fromPath env fuel s q recursive ty))
            (st3, [], none)
          (r.1, TEvent.parse path st1.paths :: r.2.1, r.2.2)

/-- Tracker.fromPath (core.py 448-470): run the crawl from a fresh
state and, when no exception escapes, assemble the result mapping with
provides, resolved and the load-order-sorted requires. -/
def fromPathTop (env : TEnv) (fuel : Nat) (path : String)
    (recursive : Bool) :
    Option (List (String × List Item) × List (Item × List String) ×
      List Item) × COut :=
  let r := fromPath env fuel TrackerSt.init path recursive none
  match r.2.2 with
  | some _ => (none, r)
  | none =>
    (some (r.1.provides, r.1.resolved, sortRequires r.1.nodes r.1.requires), r)

/-! ## Claim C9: the visited-path set only grows and guards re-parsing -/

/-- The paths extracted during a crawl, in extraction order. -/
def parsePathsOf (evs : List TEvent) : List String :=
  evs.filterMap (fun e =>
    match e with
    | .parse p _ => some p
    | .recurse _ _ => none)

/-- The visited-path discipline between two tracker states: paths only
grow, every extraction happened on a path that was new, already marked
in the snapshot taken at extraction time, and present afterwards, and no
path is extracted twice. -/
def CrawlOK (st st' : TrackerSt) (evs : List TEvent) : Prop :=
  (∃ t, st'.paths = st.paths ++ t) ∧
  (∀ p snap, TEvent.parse p snap ∈ evs →
    p ∉ st.paths ∧ p ∈ st'.paths ∧ p ∈ snap) ∧
  (parsePathsOf evs).Nodup

theorem mem_parsePathsOf (evs : List TEvent) (p : String) :
    p ∈ parsePathsOf evs ↔ ∃ snap, TEvent.parse p snap ∈ evs := by
  rw [parsePathsOf, List.mem_filterMap]
  constructor
  · rintro ⟨e, he, hf⟩
    cases e with
    | parse p' snap =>
      simp only [Option.some_inj] at hf
      exact ⟨snap, hf ▸ he⟩
    | recurse d q => cases hf
  · rintro ⟨snap, hmem⟩
    exact ⟨TEvent.parse p snap, hmem, rfl⟩

theorem crawlOK_nil (st : TrackerSt) : CrawlOK st st [] :=
  ⟨⟨[], by simp⟩, by simp, List.nodup_nil⟩

theorem crawlOK_eq_paths (st st' : TrackerSt) (h : st'.paths = st.paths) :
    CrawlOK st st' [] :=
  ⟨⟨[], by simp [h]⟩, by simp, List.nodup_nil⟩

/-- Replacing the final state by one with the same visited paths keeps
the discipline. -/
theorem crawlOK_congr_right (a b b' : TrackerSt) (evs : List TEvent)
    (h : CrawlOK a b evs) (hpaths : b'.paths = b.paths) :
    CrawlOK a b' evs := by
  obtain ⟨⟨t, ht⟩, hp, hn⟩ := h
  refine ⟨⟨t, by rw [hpaths, ht]⟩, ?_, hn⟩
  intro p snap hmem
  obtain ⟨q1, q2, q3⟩ := hp p snap hmem
  exact ⟨q1, by rw [hpaths]; exact q2, q3⟩

theorem crawlOK_trans (a b c : TrackerSt) (e1 e2 : List TEvent)
    (h1 : CrawlOK a b e1) (h2 : CrawlOK b c e2) : CrawlOK a c (e1 ++ e2) := by
  obtain ⟨⟨t1, ht1⟩, hp1, hn1⟩ := h1
  obtain ⟨⟨t2, ht2⟩, hp2, hn2⟩ := h2
  refine ⟨⟨t1 ++ t2, by rw [ht2, ht1, List.append_assoc]⟩, ?_, ?_⟩
  · intro p snap hmem
    rcases List.mem_append.mp hmem with h | h
    · obtain ⟨q1, q2, q3⟩ := hp1 p snap h
      refine ⟨q1, ?_, q3⟩
      rw [ht2]
      exact List.mem_append_left t2 q2
    · obtain ⟨q1, q2, q3⟩ := hp2 p snap h
      refine ⟨?_, q2, q3⟩
      intro hcon
      exact q1 (by rw [ht1]; exact List.mem_append_left t1 hcon)
  · rw [parsePathsOf, List.filterMap_append]
    rw [List.nodup_append]
    refine ⟨hn1, hn2, ?_⟩
    intro p hpe1 hpe2
    obtain ⟨s1, hs1⟩ := (mem_parsePathsOf e1 p).mp hpe1
    obtain ⟨s2, hs2⟩ := (mem_parsePathsOf e2 p).mp hpe2
    exact (hp2 p s2 hs2).1 (hp1 p s1 hs1).2.1

theorem crawlOK_cons_recurse (a b : TrackerSt) (evs : List TEvent)
    (d : Item) (q : String) (h : CrawlOK a b evs) :
    CrawlOK a b (TEvent.recurse d q :: evs) := by
  obtain ⟨hpfx, hp, hn⟩ := h
  refine ⟨hpfx, ?_, ?_⟩
  · intro p snap hmem
    rcases List.mem_cons.mp hmem with hc | hc
    · cases hc
    · exact hp p snap hc
  · simpa [parsePathsOf] using hn

/-- trackerResolve never touches the visited paths. -/
theorem trackerResolve_paths (env : TEnv) (k : PKind) (item : Item)
    (path : String) (st : TrackerSt) :
    (trackerResolve env k item path st).1.paths = st.paths := rfl

/-- Prepending the parse event of the newly marked path preserves the
visited-path discipline of the remaining crawl. -/
theorem crawlOK_parse_head (st st3 stf : TrackerSt) (path : String)
    (revs : List TEvent) (hvis : path ∉ st.paths)
    (hpaths3 : st3.paths = st.paths ++ [path])
    (h : CrawlOK st3 stf revs) :
    CrawlOK st stf (TEvent.parse path (st.paths ++ [path]) :: revs) := by
  obtain ⟨⟨t, ht⟩, hp, hn⟩ := h
  refine ⟨⟨[path] ++ t, by rw [ht, hpaths3, List.append_assoc]⟩, ?_, ?_⟩
  · intro p snap hmem
    rcases List.mem_cons.mp hmem with hc | hc
    · cases hc
      refine ⟨hvis, ?_, by simp⟩
      rw [ht, hpaths3]
      simp
    · obtain ⟨q1, q2, q3⟩ := hp p snap hc
      refine ⟨?_, q2, q3⟩
      intro hcon
      exact q1 (by rw [hpaths3]; exact List.mem_append_left [path] hcon)
  · rw [show parsePathsOf (TEvent.parse path (st.paths ++ [path]) :: revs) =
      path :: parsePathsOf revs from rfl]
    rw [List.nodup_cons]
    refine ⟨?_, hn⟩
    intro hcon
    obtain ⟨snap, hsnap⟩ := (mem_parsePathsOf _ path).mp hcon
    exact (hp path snap hsnap).1 (by rw [hpaths3]; simp)

/-- The visited-path discipline holds for every crawl at every fuel. -/
theorem crawl_ok (env : TEnv) : ∀ (fuel : Nat) (st : TrackerSt)
    (path : String) (rec : Bool) (type : Option String),
    CrawlOK st (fromPath env fuel st path rec type).1
      (fromPath env fuel st path rec type).2.1 := by
  intro fuel
  induction fuel with
  | zero => exact fun st path rec type => crawlOK_nil st
  | succ fuel ih =>
    intro st path rec type
    have hrec : ∀ (dep : Item) (qs : List String) (st0 : TrackerSt)
        (acc : COut), CrawlOK st0 acc.1 acc.2.1 →
        CrawlOK st0
          (qs.foldl (recStep dep
            (fun s q ty => fromPath env fuel s q rec ty)) acc).1
          (qs.foldl (recStep dep
            (fun s q ty => fromPath env fuel s q rec ty)) acc).2.1 := by
      intro dep qs
      induction qs with
      | nil => exact fun st0 acc h => h
      | cons q qs ihq =>
        intro st0 acc h
        rw [List.foldl_cons]
        apply ihq
        obtain ⟨sta, evs, err⟩ := acc
        cases err with
        | some e => exact h
        | none =>
          simp only [recStep]
          exact crawlOK_trans _ _ _ _ _ h
            (crawlOK_cons_recurse _ _ _ dep q (ih sta q rec (some dep.1)))
    have hdepf : ∀ (k : PKind) (deps : List Item) (st0 : TrackerSt)
        (acc : COut), CrawlOK st0 acc.1 acc.2.1 →
        CrawlOK st0
          (deps.foldl (depStep env k path rec
            (fun s q ty => fromPath env fuel s q rec ty)) acc).1
          (deps.foldl (depStep env k path rec
            (fun s q ty => fromPath env fuel s q rec ty)) acc).2.1 := by
      intro k deps
      induction deps with
      | nil => exact fun st0 acc h => h
      | cons dep rest ihd =>
        intro st0 acc h
        rw [List.foldl_cons]
        apply ihd
        obtain ⟨sta, evs, err⟩ := acc
        cases err with
        | some e => exact h
        | none =>
          simp only [depStep]
          by_cases hurl : endsW dep.1 ":url" = true
          · simp only [if_pos hurl]
            exact h
          · simp only [if_neg hurl]
            have hok : CrawlOK st0 (trackerResolve env k dep path sta).1 evs :=
              crawlOK_congr_right st0 sta _ evs h
                (trackerResolve_paths env k dep path sta)
            cases rec with
            | false => simpa using hok
            | true =>
              simp only [if_true]
              exact hrec dep _ st0
                ((trackerResolve env k dep path sta).1, evs, none) hok
    show CrawlOK st (fromPath env (fuel + 1) st path rec type).1
      (fromPath env (fuel + 1) st path rec type).2.1
    rw [fromPath]
    by_cases hplus : env.exist path = false ∧ hasPlus path = true
    · simp only [if_pos hplus]
      exact crawlOK_nil st
    · simp only [if_neg hplus]
      by_cases hvis : path ∈ st.paths
      · simp only [if_pos hvis]
        exact crawlOK_nil st
      · simp only [if_neg hvis]
        by_cases hdir : env.isdir path = true
        · simp only [if_pos hdir]
          exact crawlOK_nil st
        · simp only [if_neg hdir]
          cases hk : PARSERS_get (extOf path) with
          | none =>
            simp only
            exact ⟨⟨[path], rfl⟩, by simp, List.nodup_nil⟩
          | some k =>
            simp only
            cases hex : env.extract k path type with
            | error e =>
              simp only
              refine ⟨⟨[path], rfl⟩, ?_, by simp [parsePathsOf]⟩
              intro p snap hmem
              rcases List.mem_cons.mp hmem with hc | hc
              · cases hc
                exact ⟨hvis, by simp, by simp⟩
              · cases hc
            | ok pr =>
              obtain ⟨prov, reqs⟩ := pr
              simp only
              exact crawlOK_parse_head st _ _ path _ hvis rfl
                (hdepf k reqs _ _ (crawlOK_nil _))

/-- Claim C9.  During a single crawl the visited-path set self.paths
only grows: the state after any crawl extends the prior paths list; a
path is added before it is parsed (it is in the snapshot taken when its
extraction starts, and was not visited before); and the extraction log
never repeats a path, even when a path is reached again through a
different requirement. -/
theorem claim_C9_visited_paths (env : TEnv) (fuel : Nat) (st : TrackerSt)
    (path : String) (rec : Bool) (type : Option String) :
    (∃ t, (fromPath env fuel st path rec type).1.paths = st.paths ++ t) ∧
    (∀ p snap, TEvent.parse p snap ∈ (fromPath env fuel st path rec type).2.1 →
      p ∉ st.paths ∧ p ∈ (fromPath env fuel st path rec type).1.paths ∧
      p ∈ snap) ∧
    (parsePathsOf (fromPath env fuel st path rec type).2.1).Nodup :=
  crawl_ok env fuel st path rec type

/-- A two-file cycle on disk: a.js requires b, b.js requires a. -/
def envW9 : TEnv :=
  { exist := fun _ => true
    isdir := fun _ => false
    extract := fun _ p _ =>
      if p = "a.js" then .ok ([("js:module", "a")], [("js:module", "b")])
      else if p = "b.js" then .ok ([("js:module", "b")], [("js:module", "a")])
      else .ok ([], [])
    resolvePaths := fun _ item _ =>
      if item = ("js:module", "a") then ["a.js"]
      else if item = ("js:module", "b") then ["b.js"]
      else [] }

/-- Witness for C9: crawling the two-file cycle parses each file once,
with the visited set growing from [] to [a.js, b.js] and never
re-entering a.js even though b.js requires it back. -/
theorem claim_C9_witness :
    (fromPath envW9 3 TrackerSt.init "a.js" true none).1.paths =
      ["a.js", "b.js"] ∧
    (parsePathsOf (fromPath envW9 3 TrackerSt.init "a.js" true none).2.1).Nodup :=
  ⟨by decide,
   (claim_C9_visited_paths envW9 3 TrackerSt.init "a.js" true none).2.2⟩

/-! ## Error-freeness and monotonicity facts about the crawl -/

theorem ext_trans {α : Type} {a b c : List α} (h1 : ∃ t, b = a ++ t)
    (h2 : ∃ t, c = b ++ t) : ∃ t, c = a ++ t := by
  obtain ⟨t1, ht1⟩ := h1
  obtain ⟨t2, ht2⟩ := h2
  exact ⟨t1 ++ t2, by rw [ht2, ht1, List.append_assoc]⟩

theorem mergeL_extends {α : Type} [DecidableEq α] (a b : List α) :
    ∃ t, mergeL a b = a ++ t :=
  foldl_extends (fun acc e => if e ∈ acc then acc else acc ++ [e])
    (fun acc e => by
      by_cases h : e ∈ acc
      · exact ⟨[], by simp [h]⟩
      · exact ⟨[e], by simp [h]⟩) b a

/-- trackerResolve never touches the requirement list. -/
theorem trackerResolve_requires (env : TEnv) (k : PKind) (item : Item)
    (path : String) (st : TrackerSt) :
    (trackerResolve env k item path st).1.requires = st.requires := rfl

/-- The requirement set only grows during a crawl. -/
theorem crawl_requires (env : TEnv) : ∀ (fuel : Nat) (st : TrackerSt)
    (path : String) (rec : Bool) (type : Option String),
    ∃ t, (fromPath env fuel st path rec type).1.requires =
      st.requires ++ t := by
  intro fuel
  induction fuel with
  | zero => exact fun st path rec type => ⟨[], by simp [fromPath]⟩
  | succ fuel ih =>
    intro st path rec type
    have hrec : ∀ (dep : Item) (qs : List String) (acc : COut),
        ∃ t, (qs.foldl (recStep dep
          (fun s q ty => fromPath env fuel s q rec ty)) acc).1.requires =
          acc.1.requires ++ t := by
      intro dep qs
      induction qs with
      | nil => exact fun acc => ⟨[], by simp⟩
      | cons q qs ihq =>
        intro acc
        rw [List.foldl_cons]
        refine ext_trans ?_ (ihq _)
        obtain ⟨sta, evs, err⟩ := acc
        cases err with
        | some e => exact ⟨[], by simp [recStep]⟩
        | none =>
          simp only [recStep]
          exact ih sta q rec (some dep.1)
    have hdepf : ∀ (k : PKind) (deps : List Item) (acc : COut),
        ∃ t, (deps.foldl (depStep env k path rec
          (fun s q ty => fromPath env fuel s q rec ty)) acc).1.requires =
          acc.1.requires ++ t := by
      intro k deps
      induction deps with
      | nil => exact fun acc => ⟨[], by simp⟩
      | cons dep rest ihd =>
        intro acc
        rw [List.foldl_cons]
        refine ext_trans ?_ (ihd _)
        obtain ⟨sta, evs, err⟩ := acc
        cases err with
        | some e => exact ⟨[], by simp [depStep]⟩
        | none =>
          simp only [depStep]
          by_cases hurl : endsW dep.1 ":url" = true
          · exact ⟨[], by simp [hurl]⟩
          · simp only [if_neg hurl]
            cases rec with
            | false => exact ⟨[], by simp [trackerResolve_requires]⟩
            | true =>
              simp only [if_true]
              obtain ⟨t, ht⟩ := hrec dep (trackerResolve env k dep path sta).2
                ((trackerResolve env k dep path sta).1, evs, none)
              exact ⟨t, by rw [ht]; rfl⟩
    rw [fromPath]
    by_cases hplus : env.exist path = false ∧ hasPlus path = true
    · exact ⟨[], by simp [hplus]⟩
    · simp only [if_neg hplus]
      by_cases hvis : path ∈ st.paths
      · exact ⟨[], by simp [hvis]⟩
      · simp only [if_neg hvis]
        by_cases hdir : env.isdir path = true
        · exact ⟨[], by simp [hdir]⟩
        · simp only [if_neg hdir]
          cases hk : PARSERS_get (extOf path) with
          | none => exact ⟨[], by simp⟩
          | some k =>
            simp only
            cases hex : env.extract k path type with
            | error e => exact ⟨[], by simp⟩
            | ok pr =>
              obtain ⟨prov, reqs⟩ := pr
              simp only
              refine ext_trans (mergeL_extends st.requires reqs) ?_
              exact hdepf k reqs _

/-- An environment in which no composite path escapes the existence
check and extraction always succeeds: the two conditions under which
core.py can raise while crawling. -/
def SafeEnv (env : TEnv) : Prop :=
  (∀ p, env.exist p = false → hasPlus p = false) ∧
  (∀ k p t, ∃ pr rq, env.extract k p t = Except.ok (pr, rq))

/-- Under a safe environment no exception escapes a crawl. -/
theorem crawl_noerr (env : TEnv) (hsafe : SafeEnv env) :
    ∀ (fuel : Nat) (st : TrackerSt) (path : String) (rec : Bool)
      (type : Option String),
    (fromPath env fuel st path rec type).2.2 = none := by
  intro fuel
  induction fuel with
  | zero => exact fun st path rec type => rfl
  | succ fuel ih =>
    intro st path rec type
    have hrec : ∀ (dep : Item) (qs : List String) (acc : COut),
        acc.2.2 = none →
        (qs.foldl (recStep dep
          (fun s q ty => fromPath env fuel s q rec ty)) acc).2.2 = none := by
      intro dep qs
      induction qs with
      | nil => exact fun acc h => h
      | cons q qs ihq =>
        intro acc h
        rw [List.foldl_cons]
        apply ihq
        obtain ⟨sta, evs, err⟩ := acc
        cases err with
        | some e => cases h
        | none =>
          simp only [recStep]
          exact ih sta q rec (some dep.1)
    have hdepf : ∀ (k : PKind) (deps : List Item) (acc : COut),
        acc.2.2 = none →
        (deps.foldl (depStep env k path rec
          (fun s q ty => fromPath env fuel s q rec ty)) acc).2.2 = none := by
      intro k deps
      induction deps with
      | nil => exact fun acc h => h
      | cons dep rest ihd =>
        intro acc h
        rw [List.foldl_cons]
        apply ihd
        obtain ⟨sta, evs, err⟩ := acc
        cases err with
        | some e => cases h
        | none =>
          simp only [depStep]
          by_cases hurl : endsW dep.1 ":url" = true
          · simp [hurl]
          · simp only [if_neg hurl]
            cases rec with
            | false => simp
            | true =>
              simp only [if_true]
              exact hrec dep (trackerResolve env k dep path sta).2
                ((trackerResolve env k dep path sta).1, evs, none) rfl
    rw [fromPath]
    have hguard : ¬ (env.exist path = false ∧ hasPlus path = true) := by
      rintro ⟨h1, h2⟩
      rw [hsafe.1 path h1] at h2
      cases h2
    simp only [if_neg hguard]
    by_cases hvis : path ∈ st.paths
    · simp [hvis]
    · simp only [if_neg hvis]
      by_cases hdir : env.isdir path = true
      · simp [hdir]
      · simp only [if_neg hdir]
        cases hk : PARSERS_get (extOf path) with
        | none => simp
        | some k =>
          simp only
          cases hex : env.extract k path type with
          | error e =>
            obtain ⟨pr, rq, heq⟩ := hsafe.2 k path type
            rw [heq] at hex
            cases hex
          | ok pr =>
            obtain ⟨prov, reqs⟩ := pr
            simp only
            exact hdepf k reqs _ rfl

/-! ## Claims C1 and C7: the resolved cache -/

theorem lookupA_none_of_not_any {κ ν : Type} [DecidableEq κ]
    (l : List (κ × ν)) (k : κ) (h : l.any (fun kv => kv.1 = k) = false) :
    lookupA l k = none := by
  induction l with
  | nil => rfl
  | cons kv rest ih =>
    rw [List.any_cons, Bool.or_eq_false_iff] at h
    rw [lookupA, if_neg (by simpa using h.1)]
    exact ih h.2

theorem lookupA_setA_self {κ ν : Type} [DecidableEq κ]
    (l : List (κ × ν)) (k : κ) (v : ν) :
    lookupA (setA l k v) k = some v := by
  rw [setA]
  by_cases h : l.any (fun kv => kv.1 = k) = true
  · rw [if_pos h]
    induction l with
    | nil => cases h
    | cons kv rest ih =>
      rw [List.any_cons, Bool.or_eq_true] at h
      by_cases hk : kv.1 = k
      · rw [List.map_cons, if_pos hk, lookupA, if_pos rfl]
      · rw [List.map_cons, if_neg hk, lookupA, if_neg hk]
        exact ih (h.resolve_left (by simpa using hk))
  · rw [if_neg h]
    have hnone : lookupA l k = none :=
      lookupA_none_of_not_any l k (Bool.eq_false_iff.mpr h)
    induction l with
    | nil => rw [List.nil_append, lookupA, if_pos rfl]
    | cons kv rest ih =>
      rw [lookupA] at hnone
      by_cases hk : kv.1 = k
      · rw [if_pos hk] at hnone
        cases hnone
      · rw [if_neg hk] at hnone
        rw [List.cons_append, lookupA, if_neg hk]
        exact ih (by
          intro hcon
          exact h (by
            rw [List.any_cons, Bool.or_eq_true]
            right
            exact hcon)) hnone

theorem lookupA_setA_other {κ ν : Type} [DecidableEq κ]
    (l : List (κ × ν)) (k k' : κ) (v : ν) (hne : k' ≠ k) :
    lookupA (setA l k v) k' = lookupA l k' := by
  rw [setA]
  by_cases h : l.any (fun kv => kv.1 = k) = true
  · rw [if_pos h]
    clear h
    induction l with
    | nil => rfl
    | cons kv rest ih =>
      rw [List.map_cons]
      by_cases hk : kv.1 = k
      · rw [if_pos hk]
        simp only [lookupA]
        rw [if_neg (fun hcon : k = k' => hne hcon.symm)]
        rw [if_neg (fun hcon : kv.1 = k' => hne ((hk.symm.trans hcon).symm))]
        exact ih
      · rw [if_neg hk]
        simp only [lookupA]
        by_cases hk' : kv.1 = k'
        · rw [if_pos hk', if_pos hk']
        · rw [if_neg hk', if_neg hk']
          exact ih
  · rw [if_neg h]
    clear h
    induction l with
    | nil =>
      rw [List.nil_append]
      simp only [lookupA]
      rw [if_neg (fun hcon : k = k' => hne hcon.symm)]
    | cons kv rest ih =>
      rw [List.cons_append]
      simp only [lookupA]
      by_cases hk' : kv.1 = k'
      · rw [if_pos hk', if_pos hk']
      · rw [if_neg hk', if_neg hk']
        exact ih

/-- The cache update performed by one Tracker.resolve call: because the
membership test compares the item's name string with pair keys and so is
always true, the entry is reset to [] and then merged with the current
call's candidate list. -/
theorem trackerResolve_resolved (env : TEnv) (k : PKind) (item : Item)
    (path : String) (st : TrackerSt) :
    (trackerResolve env k item path st).1.resolved =
      setA (setA st.resolved item []) item
        (mergeL ((lookupA (setA st.resolved item []) item).getD [])
          (env.resolvePaths k item path)) := by
  have hcond : (st.resolved.all fun kv => ! itemEqStr kv.1 item.2) = true := by
    simp [itemEqStr]
  simp [trackerResolve, hcond]

/-- The stored value for the resolved item is just the deduplication of
the current call's candidate list; earlier cached paths are gone. -/
theorem trackerResolve_lookup_self (env : TEnv) (k : PKind) (item : Item)
    (path : String) (st : TrackerSt) :
    lookupA (trackerResolve env k item path st).1.resolved item =
      some (mergeL [] (env.resolvePaths k item path)) := by
  rw [trackerResolve_resolved, lookupA_setA_self, lookupA_setA_self]
  rfl

/-- Tracker.resolve leaves the cache entries of other items untouched. -/
theorem trackerResolve_lookup_other (env : TEnv) (k : PKind) (item : Item)
    (path : String) (st : TrackerSt) (x : Item) (hx : x ≠ item) :
    lookupA (trackerResolve env k item path st).1.resolved x =
      lookupA st.resolved x := by
  rw [trackerResolve_resolved, lookupA_setA_other _ _ _ _ hx,
    lookupA_setA_other _ _ _ _ hx]

/-- If the resolver yields no candidate for dep anywhere, one resolve
call keeps (or establishes) the empty cache entry of dep. -/
theorem trackerResolve_dep_empty (env : TEnv) (dep : Item)
    (hdep : ∀ k p, env.resolvePaths k dep p = []) (k : PKind) (item : Item)
    (path : String) (st : TrackerSt)
    (h : lookupA st.resolved dep = some []) :
    lookupA (trackerResolve env k item path st).1.resolved dep = some [] := by
  by_cases hx : dep = item
  · subst hx
    rw [trackerResolve_lookup_self, hdep]
    rfl
  · rw [trackerResolve_lookup_other env k item path st dep hx]
    exact h

/-- A crawl preserves an empty cache entry for an everywhere-unresolvable
item. -/
theorem crawl_resolved_dep (env : TEnv) (dep : Item)
    (hdep : ∀ k p, env.resolvePaths k dep p = []) :
    ∀ (fuel : Nat) (st : TrackerSt) (path : String) (rec : Bool)
      (type : Option String),
    lookupA st.resolved dep = some [] →
    lookupA (fromPath env fuel st path rec type).1.resolved dep = some [] := by
  intro fuel
  induction fuel with
  | zero => exact fun st path rec type h => h
  | succ fuel ih =>
    intro st path rec type h
    have hrec : ∀ (d : Item) (qs : List String) (acc : COut),
        lookupA acc.1.resolved dep = some [] →
        lookupA ((qs.foldl (recStep d
          (fun s q ty => fromPath env fuel s q rec ty)) acc)).1.resolved dep =
          some [] := by
      intro d qs
      induction qs with
      | nil => exact fun acc hh => hh
      | cons q qs ihq =>
        intro acc hh
        rw [List.foldl_cons]
        apply ihq
        obtain ⟨sta, evs, err⟩ := acc
        cases err with
        | some e => exact hh
        | none =>
          simp only [recStep]
          exact ih sta q rec (some d.1) hh
    have hdepf : ∀ (k : PKind) (deps : List Item) (acc : COut),
        lookupA acc.1.resolved dep = some [] →
        lookupA ((deps.foldl (depStep env k path rec
          (fun s q ty => fromPath env fuel s q rec ty)) acc)).1.resolved dep =
          some [] := by
      intro k deps
      induction deps with
      | nil => exact fun acc hh => hh
      | cons d rest ihd =>
        intro acc hh
        rw [List.foldl_cons]
        apply ihd
        obtain ⟨sta, evs, err⟩ := acc
        cases err with
        | some e => exact hh
        | none =>
          simp only [depStep]
          by_cases hurl : endsW d.1 ":url" = true
          · simp only [if_pos hurl]
            exact hh
          · simp only [if_neg hurl]
            have hafter : lookupA
                (trackerResolve env k d path sta).1.resolved dep = some [] :=
              trackerResolve_dep_empty env dep hdep k d path sta hh
            cases rec with
            | false => simpa using hafter
            | true =>
              simp only [if_true]
              exact hrec d (trackerResolve env k d path sta).2
                ((trackerResolve env k d path sta).1, evs, none) hafter
    rw [fromPath]
    by_cases hplus : env.exist path = false ∧ hasPlus path = true
    · simpa [hplus] using h
    · simp only [if_neg hplus]
      by_cases hvis : path ∈ st.paths
      · simpa [hvis] using h
      · simp only [if_neg hvis]
        by_cases hdir : env.isdir path = true
        · simpa [hdir] using h
        · simp only [if_neg hdir]
          cases hk : PARSERS_get (extOf path) with
          | none => simpa using h
          | some k =>
            simp only
            cases hex : env.extract k path type with
            | error e => simpa using h
            | ok pr =>
              obtain ⟨prov, reqs⟩ := pr
              simp only
              exact hdepf k reqs _ h

/-- Once an exception is pending, the remaining dependency iterations
change nothing: the loop is aborted. -/
theorem depsFold_frozen (env : TEnv) (k : PKind) (path : String)
    (rec : Bool) (fp : TrackerSt → String → Option String → COut)
    (deps : List Item) (acc : COut) (e : CrawlErr) (h : acc.2.2 = some e) :
    deps.foldl (depStep env k path rec fp) acc = acc := by
  induction deps with
  | nil => rfl
  | cons d rest ih =>
    rw [List.foldl_cons]
    obtain ⟨sta, evs, err⟩ := acc
    cases err with
    | some e' => exact ih
    | none => cases h

/-- Once an exception is pending, the remaining candidate iterations
change nothing. -/
theorem recFold_frozen (dep : Item)
    (fp : TrackerSt → String → Option String → COut)
    (qs : List String) (acc : COut) (e : CrawlErr) (h : acc.2.2 = some e) :
    qs.foldl (recStep dep fp) acc = acc := by
  induction qs with
  | nil => rfl
  | cons q rest ih =>
    rw [List.foldl_cons]
    obtain ⟨sta, evs, err⟩ := acc
    cases err with
    | some e' => exact ih
    | none => cases h

/-- When nested crawls cannot raise, a dependency iteration keeps the
no-exception status. -/
theorem depStep_noerr (env : TEnv) (k : PKind) (path : String) (rec : Bool)
    (fp : TrackerSt → String → Option String → COut)
    (hfp : ∀ s q ty, (fp s q ty).2.2 = none) (acc : COut) (d : Item)
    (h : acc.2.2 = none) :
    (depStep env k path rec fp acc d).2.2 = none := by
  obtain ⟨sta, evs, err⟩ := acc
  cases err with
  | some e => cases h
  | none =>
    simp only [depStep]
    by_cases hurl : endsW d.1 ":url" = true
    · simp [hurl]
    · simp only [if_neg hurl]
      cases rec with
      | false => simp
      | true =>
        simp only [if_true]
        have hq : ∀ (qs : List String) (acc2 : COut), acc2.2.2 = none →
            (qs.foldl (recStep d fp) acc2).2.2 = none := by
          intro qs
          induction qs with
          | nil => exact fun acc2 hh => hh
          | cons q qs ihq =>
            intro acc2 hh
            rw [List.foldl_cons]
            apply ihq
            obtain ⟨s2, e2, r2⟩ := acc2
            cases r2 with
            | some e => cases hh
            | none =>
              simp only [recStep]
              exact hfp s2 q (some d.1)
        exact hq (trackerResolve env k d path sta).2
          ((trackerResolve env k d path sta).1, evs, none) rfl

/-- Processing an everywhere-unresolvable non-url requirement in the
dependency loop leaves its cache entry mapped to the empty list. -/
theorem depsFold_resolved_establish (env : TEnv) (dep : Item)
    (hdep : ∀ k p, env.resolvePaths k dep p = []) (fuel : Nat)
    (k : PKind) (path : String) (rec : Bool)
    (hfp : ∀ s q ty, (fromPath env fuel s q rec ty).2.2 = none)
    (hurl : endsW dep.1 ":url" = false) :
    ∀ (deps : List Item) (acc : COut), acc.2.2 = none → dep ∈ deps →
    lookupA ((deps.foldl (depStep env k path rec
      (fun s q ty => fromPath env fuel s q rec ty)) acc)).1.resolved dep =
      some [] := by
  intro deps
  induction deps with
  | nil => exact fun acc _ hmem => absurd hmem (List.not_mem_nil dep)
  | cons d rest ih =>
    intro acc hnone hmem
    rw [List.foldl_cons]
    by_cases hd : dep = d
    · subst hd
      -- the step resets the entry to [] and merges the empty candidate
      -- list; the remaining iterations preserve it
      have hafter : lookupA (depStep env k path rec
          (fun s q ty => fromPath env fuel s q rec ty) acc dep).1.resolved
          dep = some [] := by
        obtain ⟨sta, evs, err⟩ := acc
        cases err with
        | some e => cases hnone
        | none =>
          simp only [depStep]
          rw [Bool.eq_false_iff] at hurl
          simp only [if_neg hurl]
          have hself : lookupA
              (trackerResolve env k dep path sta).1.resolved dep = some [] := by
            rw [trackerResolve_lookup_self, hdep]
            rfl
          cases rec with
          | false => simpa using hself
          | true =>
            simp only [if_true]
            have hq : ∀ (qs : List String) (acc2 : COut),
                lookupA acc2.1.resolved dep = some [] →
                lookupA ((qs.foldl (recStep dep
                  (fun s q ty => fromPath env fuel s q true ty))
                  acc2)).1.resolved dep = some [] := by
              intro qs
              induction qs with
              | nil => exact fun acc2 hh => hh
              | cons q qs ihq =>
                intro acc2 hh
                rw [List.foldl_cons]
                apply ihq
                obtain ⟨s2, e2, r2⟩ := acc2
                cases r2 with
                | some e => exact hh
                | none =>
                  simp only [recStep]
                  exact crawl_resolved_dep env dep hdep fuel s2 q true
                    (some dep.1) hh
            exact hq (trackerResolve env k dep path sta).2
              ((trackerResolve env k dep path sta).1, evs, none) hself
      -- preservation through the remaining dependencies
      have hpres : ∀ (ds : List Item) (acc2 : COut),
          lookupA acc2.1.resolved dep = some [] →
          lookupA ((ds.foldl (depStep env k path rec
            (fun s q ty => fromPath env fuel s q rec ty)) acc2)).1.resolved
            dep = some [] := by
        intro ds
        induction ds with
        | nil => exact fun acc2 hh => hh
        | cons d2 rest2 ihd =>
          intro acc2 hh
          rw [List.foldl_cons]
          apply ihd
          obtain ⟨s2, e2, r2⟩ := acc2
          cases r2 with
          | some e => exact hh
          | none =>
            simp only [depStep]
            by_cases hurl2 : endsW d2.1 ":url" = true
            · simpa [hurl2] using hh
            · simp only [if_neg hurl2]
              have hafter2 : lookupA
                  (trackerResolve env k d2 path s2).1.resolved dep = some [] :=
                trackerResolve_dep_empty env dep hdep k d2 path s2 hh
              cases rec with
              | false => simpa using hafter2
              | true =>
                simp only [if_true]
                have hq : ∀ (qs : List String) (acc3 : COut),
                    lookupA acc3.1.resolved dep = some [] →
                    lookupA ((qs.foldl (recStep d2
                      (fun s q ty => fromPath env fuel s q true ty))
                      acc3)).1.resolved dep = some [] := by
                  intro qs
                  induction qs with
                  | nil => exact fun acc3 hh2 => hh2
                  | cons q qs ihq =>
                    intro acc3 hh2
                    rw [List.foldl_cons]
                    apply ihq
                    obtain ⟨s3, e3, r3⟩ := acc3
                    cases r3 with
                    | some e => exact hh2
                    | none =>
                      simp only [recStep]
                      exact crawl_resolved_dep env dep hdep fuel s3 q true
                        (some d2.1) hh2
                exact hq (trackerResolve env k d2 path s2).2
                  ((trackerResolve env k d2 path s2).1, e2, none) hafter2
      exact hpres rest _ hafter
    · apply ih
      · exact depStep_noerr env k path rec _ (fun s q ty => hfp s q ty) acc d
          hnone
      · rcases List.mem_cons.mp hmem with hc | hc
        · exact absurd hc hd
        · exact hc

/-- No crawl ever recurses on behalf of an everywhere-unresolvable
item: the candidate loop it would descend through is empty. -/
theorem crawl_no_recurse (env : TEnv) (dep : Item)
    (hdep : ∀ k p, env.resolvePaths k dep p = []) :
    ∀ (fuel : Nat) (st : TrackerSt) (path : String) (rec : Bool)
      (type : Option String) (q : String),
    TEvent.recurse dep q ∉ (fromPath env fuel st path rec type).2.1 := by
  intro fuel
  induction fuel with
  | zero =>
    intro st path rec type q
    exact List.not_mem_nil _
  | succ fuel ih =>
    intro st path rec type q
    have hrec : ∀ (d : Item) (qs : List String) (acc : COut),
        (d = dep → qs = []) →
        TEvent.recurse dep q ∉ acc.2.1 →
        TEvent.recurse dep q ∉ (qs.foldl (recStep d
          (fun s q2 ty => fromPath env fuel s q2 rec ty)) acc).2.1 := by
      intro d qs
      induction qs with
      | nil => exact fun acc _ h => h
      | cons q0 qs ihq =>
        intro acc hde h
        have hdne : d ≠ dep := by
          intro hcon
          cases hde hcon
        rw [List.foldl_cons]
        refine ihq _ (fun hcon => absurd hcon hdne) ?_
        obtain ⟨sta, evs, err⟩ := acc
        cases err with
        | some e => exact h
        | none =>
          simp only [recStep]
          intro hcon
          rcases List.mem_append.mp hcon with hc | hc
          · exact h hc
          · rcases List.mem_cons.mp hc with hc2 | hc2
            · cases hc2
              exact hdne rfl
            · exact ih sta q0 rec (some d.1) q hc2
    have hdepf : ∀ (k : PKind) (path2 : String) (deps : List Item)
        (acc : COut), TEvent.recurse dep q ∉ acc.2.1 →
        TEvent.recurse dep q ∉ (deps.foldl (depStep env k path2 rec
          (fun s q2 ty => fromPath env fuel s q2 rec ty)) acc).2.1 := by
      intro k path2 deps
      induction deps with
      | nil => exact fun acc h => h
      | cons d rest ihd =>
        intro acc h
        rw [List.foldl_cons]
        apply ihd
        obtain ⟨sta, evs, err⟩ := acc
        cases err with
        | some e => exact h
        | none =>
          simp only [depStep]
          by_cases hurl : endsW d.1 ":url" = true
          · simpa [hurl] using h
          · simp only [if_neg hurl]
            cases rec with
            | false => simpa using h
            | true =>
              simp only [if_true]
              refine hrec d (trackerResolve env k d path2 sta).2
                ((trackerResolve env k d path2 sta).1, evs, none) ?_ h
              intro hcon
              subst hcon
              show env.resolvePaths k d path2 = []
              exact hdep k path2
    rw [fromPath]
    by_cases hplus : env.exist path = false ∧ hasPlus path = true
    · simp [hplus]
    · simp only [if_neg hplus]
      by_cases hvis : path ∈ st.paths
      · simp [hvis]
      · simp only [if_neg hvis]
        by_cases hdir : env.isdir path = true
        · simp [hdir]
        · simp only [if_neg hdir]
          cases hk : PARSERS_get (extOf path) with
          | none => simp
          | some k =>
            simp only
            cases hex : env.extract k path type with
            | error e => simp
            | ok pr =>
              obtain ⟨prov, reqs⟩ := pr
              simp only
              intro hcon
              rcases List.mem_cons.mp hcon with hc | hc
              · cases hc
              · exact hdepf k path reqs _ (List.not_mem_nil _) hc

/-- The event log only grows along the candidate loop. -/
theorem recFold_events_ext (dep : Item)
    (fp : TrackerSt → String → Option String → COut)
    (qs : List String) : ∀ acc : COut,
    ∃ t, (qs.foldl (recStep dep fp) acc).2.1 = acc.2.1 ++ t := by
  induction qs with
  | nil => exact fun acc => ⟨[], by simp⟩
  | cons q qs ih =>
    intro acc
    rw [List.foldl_cons]
    refine ext_trans ?_ (ih _)
    obtain ⟨sta, evs, err⟩ := acc
    cases err with
    | some e => exact ⟨[], by simp [recStep]⟩
    | none =>
      simp only [recStep]
      exact ⟨_, rfl⟩

/-- The event log only grows along the dependency loop. -/
theorem depsFold_events_ext (env : TEnv) (k : PKind) (path : String)
    (rec : Bool) (fp : TrackerSt → String → Option String → COut)
    (deps : List Item) : ∀ acc : COut,
    ∃ t, (deps.foldl (depStep env k path rec fp) acc).2.1 = acc.2.1 ++ t := by
  induction deps with
  | nil => exact fun acc => ⟨[], by simp⟩
  | cons d rest ih =>
    intro acc
    rw [List.foldl_cons]
    refine ext_trans ?_ (ih _)
    obtain ⟨sta, evs, err⟩ := acc
    cases err with
    | some e => exact ⟨[], by simp [depStep]⟩
    | none =>
      simp only [depStep]
      by_cases hurl : endsW d.1 ":url" = true
      · exact ⟨[], by simp [hurl]⟩
      · simp only [if_neg hurl]
        cases rec with
        | false => exact ⟨[], by simp⟩
        | true =>
          simp only [if_true]
          obtain ⟨t, ht⟩ := recFold_events_ext d fp
            (trackerResolve env k d path sta).2
            ((trackerResolve env k d path sta).1, evs, none)
          exact ⟨t, by rw [ht]⟩

/-- When nested crawls cannot raise, the candidate loop logs a recursion
event for every candidate path. -/
theorem recFold_logs (dep : Item)
    (fp : TrackerSt → String → Option String → COut)
    (hfp : ∀ s q ty, (fp s q ty).2.2 = none) (qs : List String) :
    ∀ (acc : COut), acc.2.2 = none → ∀ q ∈ qs,
    TEvent.recurse dep q ∈ (qs.foldl (recStep dep fp) acc).2.1 := by
  induction qs with
  | nil => exact fun acc _ q hq => absurd hq (List.not_mem_nil q)
  | cons q0 qs ih =>
    intro acc hnone q hq
    rw [List.foldl_cons]
    obtain ⟨sta, evs, err⟩ := acc
    cases err with
    | some e => cases hnone
    | none =>
      rcases List.mem_cons.mp hq with hc | hc
      · obtain ⟨t, ht⟩ := recFold_events_ext dep fp qs
          (recStep dep fp (sta, evs, none) q0)
        rw [ht]
        apply List.mem_append_left
        rw [hc]
        simp [recStep]
      · apply ih
        · simp only [recStep]
          exact hfp sta q0 (some dep.1)
        · exact hc

/-- With recursive=true and no exceptions, the dependency loop descends
into every candidate of every non-url requirement: each recursion event
is logged. -/
theorem depsFold_descends (env : TEnv) (k : PKind) (path : String)
    (fuel : Nat)
    (hfp : ∀ s q ty, (fromPath env fuel s q true ty).2.2 = none)
    (deps : List Item) :
    ∀ (acc : COut), acc.2.2 = none → ∀ dep ∈ deps,
    endsW dep.1 ":url" = false →
    ∀ q ∈ env.resolvePaths k dep path,
    TEvent.recurse dep q ∈ (deps.foldl (depStep env k path true
      (fun s q2 ty => fromPath env fuel s q2 true ty)) acc).2.1 := by
  induction deps with
  | nil => exact fun acc _ dep hmem => absurd hmem (List.not_mem_nil dep)
  | cons d rest ih =>
    intro acc hnone dep hmem hurl q hq
    rw [List.foldl_cons]
    by_cases hd : dep = d
    · subst hd
      have hin : TEvent.recurse dep q ∈ (depStep env k path true
          (fun s q2 ty => fromPath env fuel s q2 true ty) acc dep).2.1 := by
        obtain ⟨sta, evs, err⟩ := acc
        cases err with
        | some e => cases hnone
        | none =>
          simp only [depStep]
          rw [Bool.eq_false_iff] at hurl
          simp only [if_neg hurl, if_true]
          exact recFold_logs dep _ (fun s q2 ty => hfp s q2 ty)
            (trackerResolve env k dep path sta).2
            ((trackerResolve env k dep path sta).1, evs, none) rfl q hq
      obtain ⟨t, ht⟩ := depsFold_events_ext env k path true
        (fun s q2 ty => fromPath env fuel s q2 true ty) rest
        (depStep env k path true
          (fun s q2 ty => fromPath env fuel s q2 true ty) acc dep)
      rw [ht]
      exact List.mem_append_left t hin
    · apply ih
      · exact depStep_noerr env k path true _ (fun s q2 ty => hfp s q2 ty)
          acc d hnone
      · rcases List.mem_cons.mp hmem with hc | hc
        · exact absurd hc hd
        · exact hc
      · exact hurl
      · exact hq

/-- The shape of one successful _fromPath frame: the path is marked
visited, the parse result is merged, and the dependency loop runs on the
merged state. -/
theorem fromPath_succ_ok (env : TEnv) (fuel : Nat) (st : TrackerSt)
    (path : String) (rec : Bool) (type : Option String) (k : PKind)
    (prov reqs : List Item)
    (hguard : ¬ (env.exist path = false ∧ hasPlus path = true))
    (hvis : path ∉ st.paths) (hdir : env.isdir path = false)
    (hk : PARSERS_get (extOf path) = some k)
    (hex : env.extract k path type = Except.ok (prov, reqs)) :
    fromPath env (fuel + 1) st path rec type =
      ((reqs.foldl (depStep env k path rec
          (fun s q ty => fromPath env fuel s q rec ty))
          (⟨st.provides ++ [(path, prov)], mergeL st.requires reqs,
            st.paths ++ [path], st.resolved,
            prov.foldl (fun nd it =>
              setA nd it (mergeL ((lookupA nd it).getD []) reqs)) st.nodes⟩,
            [], none)).1,
       TEvent.parse path (st.paths ++ [path]) ::
         (reqs.foldl (depStep env k path rec
           (fun s q ty => fromPath env fuel s q rec ty))
           (⟨st.provides ++ [(path, prov)], mergeL st.requires reqs,
             st.paths ++ [path], st.resolved,
             prov.foldl (fun nd it =>
               setA nd it (mergeL ((lookupA nd it).getD []) reqs)) st.nodes⟩,
             [], none)).2.1,
       (reqs.foldl (depStep env k path rec
         (fun s q ty => fromPath env fuel s q rec ty))
         (⟨st.provides ++ [(path, prov)], mergeL st.requires reqs,
           st.paths ++ [path], st.resolved,
           prov.foldl (fun nd it =>
             setA nd it (mergeL ((lookupA nd it).getD []) reqs)) st.nodes⟩,
           [], none)).2.2) := by
  rw [fromPath]
  rw [if_neg hguard, if_neg hvis, if_neg (by simp [hdir]), hk]
  dsimp only
  rw [hex]

theorem recFold_requires_ext (dep : Item)
    (fp : TrackerSt → String → Option String → COut)
    (hfp : ∀ s q ty, ∃ t, (fp s q ty).1.requires = s.requires ++ t)
    (qs : List String) : ∀ acc : COut,
    ∃ t, (qs.foldl (recStep dep fp) acc).1.requires =
      acc.1.requires ++ t := by
  induction qs with
  | nil => exact fun acc => ⟨[], by simp⟩
  | cons q qs ih =>
    intro acc
    rw [List.foldl_cons]
    refine ext_trans ?_ (ih _)
    obtain ⟨sta, evs, err⟩ := acc
    cases err with
    | some e => exact ⟨[], by simp [recStep]⟩
    | none =>
      simp only [recStep]
      exact hfp sta q (some dep.1)

theorem depsFold_requires_ext (env : TEnv) (k : PKind) (path : String)
    (rec : Bool) (fp : TrackerSt → String → Option String → COut)
    (hfp : ∀ s q ty, ∃ t, (fp s q ty).1.requires = s.requires ++ t)
    (deps : List Item) : ∀ acc : COut,
    ∃ t, (deps.foldl (depStep env k path rec fp) acc).1.requires =
      acc.1.requires ++ t := by
  induction deps with
  | nil => exact fun acc => ⟨[], by simp⟩
  | cons d rest ih =>
    intro acc
    rw [List.foldl_cons]
    refine ext_trans ?_ (ih _)
    obtain ⟨sta, evs, err⟩ := acc
    cases err with
    | some e => exact ⟨[], by simp [depStep]⟩
    | none =>
      simp only [depStep]
      by_cases hurl : endsW d.1 ":url" = true
      · exact ⟨[], by simp [hurl]⟩
      · simp only [if_neg hurl]
        cases rec with
        | false => exact ⟨[], by simp [trackerResolve_requires]⟩
        | true =>
          simp only [if_true]
          obtain ⟨t, ht⟩ := recFold_requires_ext d fp hfp
            (trackerResolve env k d path sta).2
            ((trackerResolve env k d path sta).1, evs, none)
          exact ⟨t, by rw [ht]; rfl⟩

/-- The raw crawl outcome carried by Tracker.fromPath. -/
theorem fromPathTop_snd (env : TEnv) (fuel : Nat) (path : String)
    (rec : Bool) :
    (fromPathTop env fuel path rec).2 =
      fromPath env fuel TrackerSt.init path rec none := by
  cases h : (fromPath env fuel TrackerSt.init path rec none).2.2 with
  | some e => simp [fromPathTop, h]
  | none => simp [fromPathTop, h]

/-- When no exception escapes, Tracker.fromPath returns the assembled
result mapping. -/
theorem fromPathTop_fst_of_noerr (env : TEnv) (fuel : Nat) (path : String)
    (rec : Bool)
    (h : (fromPath env fuel TrackerSt.init path rec none).2.2 = none) :
    (fromPathTop env fuel path rec).1 =
      some ((fromPath env fuel TrackerSt.init path rec none).1.provides,
        (fromPath env fuel TrackerSt.init path rec none).1.resolved,
        sortRequires (fromPath env fuel TrackerSt.init path rec none).1.nodes
          (fromPath env fuel TrackerSt.init path rec none).1.requires) := by
  simp [fromPathTop, h]

/-- Claim C1, amended.  With recursive=true, when some required item of
the entry file resolves to zero candidate paths everywhere, the crawl
does not fail: Tracker.fromPath returns its result mapping, the
unresolved item appears in the returned requires, it appears as a key of
the returned resolved mapping but only with an empty path sequence, no
path is ever recursively visited on its behalf, and recursion still
descends into every candidate of the other resolvable requirements of
the entry file. -/
theorem claim_C1_unresolved_dependency_nonfatal
    (env : TEnv) (fuel : Nat) (path : String) (k : PKind)
    (prov reqs : List Item) (dep : Item)
    (hsafe : SafeEnv env)
    (hdir : env.isdir path = false)
    (hk : PARSERS_get (extOf path) = some k)
    (hex : env.extract k path none = Except.ok (prov, reqs))
    (hdepmem : dep ∈ reqs)
    (hurl : endsW dep.1 ":url" = false)
    (hdep : ∀ k' p, env.resolvePaths k' dep p = []) :
    (fromPathTop env (fuel + 1) path true).2.2.2 = none ∧
    (∃ provides resolved sortedReq,
      (fromPathTop env (fuel + 1) path true).1 =
        some (provides, resolved, sortedReq) ∧
      dep ∈ sortedReq ∧ lookupA resolved dep = some []) ∧
    (∀ q, TEvent.recurse dep q ∉ (fromPathTop env (fuel + 1) path true).2.2.1) ∧
    (∀ dep' ∈ reqs, endsW dep'.1 ":url" = false →
      ∀ q ∈ env.resolvePaths k dep' path,
        TEvent.recurse dep' q ∈ (fromPathTop env (fuel + 1) path true).2.2.1) := by
  have hguard : ¬ (env.exist path = false ∧ hasPlus path = true) := by
    rintro ⟨h1, h2⟩
    rw [hsafe.1 path h1] at h2
    cases h2
  have hfpne : ∀ s q ty, (fromPath env fuel s q true ty).2.2 = none :=
    fun s q ty => crawl_noerr env hsafe fuel s q true ty
  have herr : (fromPath env (fuel + 1) TrackerSt.init path true none).2.2 =
      none := crawl_noerr env hsafe (fuel + 1) TrackerSt.init path true none
  have hvis : path ∉ TrackerSt.init.paths := by
    show path ∉ []
    exact List.not_mem_nil path
  have hunf := fromPath_succ_ok env fuel TrackerSt.init path true none k
    prov reqs hguard hvis hdir hk hex
  refine ⟨?_, ?_, ?_, ?_⟩
  · rw [fromPathTop_snd]
    exact herr
  · refine ⟨_, _, _, fromPathTop_fst_of_noerr env (fuel + 1) path true herr,
      ?_, ?_⟩
    · refine ((sortRequires_spec _ _).2 _).mpr
        ⟨dep, ?_, Relation.ReflTransGen.refl⟩
      rw [hunf]
      show dep ∈ (reqs.foldl (depStep env k path true
        (fun s q ty => fromPath env fuel s q true ty)) _).1.requires
      obtain ⟨t, ht⟩ := depsFold_requires_ext env k path true
        (fun s q ty => fromPath env fuel s q true ty)
        (fun s q ty => crawl_requires env fuel s q true ty) reqs _
      rw [ht]
      apply List.mem_append_left
      exact (mem_mergeL _ _ _).mpr (Or.inr hdepmem)
    · rw [hunf]
      show lookupA (reqs.foldl (depStep env k path true
        (fun s q ty => fromPath env fuel s q true ty)) _).1.resolved dep =
        some []
      exact depsFold_resolved_establish env dep hdep fuel k path true hfpne
        hurl reqs _ rfl hdepmem
  · intro q
    rw [fromPathTop_snd]
    exact crawl_no_recurse env dep hdep (fuel + 1) TrackerSt.init path true
      none q
  · intro dep' hmem hurl' q hq
    rw [fromPathTop_snd, hunf]
    exact List.mem_cons_of_mem _
      (depsFold_descends env k path fuel hfpne reqs _ rfl dep' hmem hurl' q hq)

/-- A crawl in which a.js requires one unresolvable item b and one
resolvable item c. -/
def envW1 : TEnv :=
  { exist := fun _ => true
    isdir := fun _ => false
    extract := fun _ p _ =>
      if p = "a.js" then
        .ok ([("js:module", "a")], [("js:module", "b"), ("js:module", "c")])
      else if p = "c.js" then .ok ([("js:module", "c")], [])
      else .ok ([], [])
    resolvePaths := fun _ item _ =>
      if item = ("js:module", "c") then ["c.js"] else [] }

theorem envW1_safe : SafeEnv envW1 := by
  constructor
  · intro p h
    simp [envW1] at h
  · intro k p t
    dsimp only [envW1]
    split
    · exact ⟨_, _, rfl⟩
    · split
      · exact ⟨_, _, rfl⟩
      · exact ⟨_, _, rfl⟩

/-- Witness for C1 (amended): crawling a.js whose requirement b cannot
be resolved still succeeds; b is in the sorted requires, maps to [] in
resolved, is never recursed into, while the resolvable requirement c is
descended into. -/
theorem claim_C1_witness :
    (fromPathTop envW1 3 "a.js" true).2.2.2 = none ∧
    (∃ provides resolved sortedReq,
      (fromPathTop envW1 3 "a.js" true).1 =
        some (provides, resolved, sortedReq) ∧
      ("js:module", "b") ∈ sortedReq ∧
      lookupA resolved ("js:module", "b") = some []) ∧
    (∀ q, TEvent.recurse ("js:module", "b") q ∉
      (fromPathTop envW1 3 "a.js" true).2.2.1) ∧
    (∀ dep' ∈ [(("js:module" : String), ("b" : String)), ("js:module", "c")],
      endsW dep'.1 ":url" = false →
      ∀ q ∈ envW1.resolvePaths .javascript dep' "a.js",
        TEvent.recurse dep' q ∈ (fromPathTop envW1 3 "a.js" true).2.2.1) :=
  claim_C1_unresolved_dependency_nonfatal envW1 2 "a.js" .javascript
    [("js:module", "a")] [("js:module", "b"), ("js:module", "c")]
    ("js:module", "b") envW1_safe rfl (by decide) rfl (by decide)
    (by decide) (fun k' p => by simp [envW1])

/-- Counterexample to C1 as stated: the unresolved item b does appear as
a key of the returned resolved mapping, bound to the empty list. -/
theorem claim_C1_counterexample :
    (fromPathTop envW1 3 "a.js" true).2.2.2 = none ∧
    ((fromPathTop envW1 3 "a.js" true).1.getD ([], [], [])).2.1.map Prod.fst =
      [("js:module", "b"), ("js:module", "c")] ∧
    lookupA ((fromPathTop envW1 3 "a.js" true).1.getD ([], [], [])).2.1
      ("js:module", "b") = some [] := by
  refine ⟨by decide, by decide, by decide⟩

/-! ## Claim C2: a malformed declaration aborts the crawl -/

/-- A match of Paml.RE_ATTRIBUTE against the head of the remaining
attribute text: group(1) is the attribute name, group(4) the raw value
when present, and the match end offset. -/
structure AttrMatch where
  g1 : List Char
  g4 : Option (List Char)
  stop : Nat
deriving DecidableEq

/-- Python name.replace("::", ":"). -/
def repColons : List Char → List Char
  | ':' :: ':' :: r => ':' :: repColons r
  | c :: r => c :: repColons r
  | [] => []

/-- The while loop of Paml._parseAttributes (core.py 347-366) over a
regular-expression oracle for RE_ATTRIBUTE.  Each failed assert of the
source is an error; the fuel argument only bounds the loop and is chosen
one past the worst case by the wrapper. -/
def parseAttrsGo (re : List Char → Option AttrMatch) :
    Nat → List Char → List Char → List (List Char × Option (List Char)) →
    Except String (List (List Char × Option (List Char)))
  | 0, _, _, _ => .error "loop guard exhausted"
  | fl + 1, attributes, original, result =>
    if attributes = [] then .ok result
    else
      match re attributes with
      | none => .error "Given attributes are malformed"
      | some m =>
        let name := repColons m.g1
        let value : Option (List Char) :=
          match m.g4 with
          | none => none
          | some v =>
            if v ≠ [] ∧ v.head? = v.getLast? ∧
                (v.head? = some '\'' ∨ v.head? = some '"') then
              some (v.drop 1).dropLast
            else some v
        let result2 := result ++ [(name, value)]
        let a2 := attributes.drop m.stop
        if a2 ≠ [] then
          if a2.head? = some ',' then
            let a3 := a2.drop 1
            if a3 = [] then
              .error "Trailing comma with no remaining attributes"
            else parseAttrsGo re fl a3 original result2
          else .error "Attributes must be comma-separated"
        else parseAttrsGo re fl a2 original result2

/-- Paml._parseAttributes: run the attribute loop and build the final
dictionary from the collected pairs. -/
def pamlParseAttributes (re : List Char → Option AttrMatch)
    (attributes : List Char) :
    Except String (List (List Char × Option (List Char))) :=
  (parseAttrsGo re (attributes.length + 2) attributes attributes []).map
    (fun pairs => pairs.foldl (fun d kv => setA d kv.1 kv.2) [])

/-- RE_ATTRIBUTE's behaviour on the malformed attribute text x=: the
name x matches, the optional value part matches empty (its alternatives
all need at least one character), and matching ends after one
character. -/
def reSample (s : List Char) : Option AttrMatch :=
  if s = "x=".data then some ⟨"x".data, none, 1⟩ else none

/-- Claim C2, amended.  A recognized declaration line that violates its
own sub-grammar fails extraction of that single file: the frame marks
the path visited, logs its extraction, changes nothing else, and
propagates the error to its caller; and a pending exception freezes the
remaining iterations of both crawl loops, so the other files of the
crawl are not processed (previously aggregated state is preserved
inside the returned tracker). -/
theorem claim_C2_malformed_declaration_aborts :
    (∀ (env : TEnv) (fuel : Nat) (st : TrackerSt) (path : String)
       (rec : Bool) (type : Option String) (k : PKind) (e : String),
       ¬ (env.exist path = false ∧ hasPlus path = true) →
       path ∉ st.paths → env.isdir path = false →
       PARSERS_get (extOf path) = some k →
       env.extract k path type = Except.error e →
       fromPath env (fuel + 1) st path rec type =
         ({st with paths := st.paths ++ [path]},
          [TEvent.parse path (st.paths ++ [path])],
          some (CrawlErr.parseFailure path e))) ∧
    (∀ (env : TEnv) (k : PKind) (path : String) (rec : Bool)
       (fp : TrackerSt → String → Option String → COut)
       (deps : List Item) (acc : COut) (e : CrawlErr),
       acc.2.2 = some e →
       deps.foldl (depStep env k path rec fp) acc = acc) ∧
    (∀ (dep : Item) (fp : TrackerSt → String → Option String → COut)
       (qs : List String) (acc : COut) (e : CrawlErr),
       acc.2.2 = some e →
       qs.foldl (recStep dep fp) acc = acc) := by
  refine ⟨?_, depsFold_frozen, recFold_frozen⟩
  intro env fuel st path rec type k e hguard hvis hdir hk hex
  rw [fromPath]
  rw [if_neg hguard, if_neg hvis, if_neg (by simp [hdir]), hk]
  dsimp only
  rw [hex]

/-- A crawl whose entry a.paml requires two files; extraction of the
first, b.paml, fails on a malformed declaration. -/
def envC2 : TEnv :=
  { exist := fun _ => true
    isdir := fun _ => false
    extract := fun _ p _ =>
      if p = "a.paml" then
        .ok ([("paml:module", "a")],
          [("paml:file", "b.paml"), ("paml:file", "c.paml")])
      else if p = "b.paml" then .error "Attributes must be comma-separated"
      else .ok ([], [])
    resolvePaths := fun _ item _ =>
      if item = ("paml:file", "b.paml") then ["b.paml"]
      else if item = ("paml:file", "c.paml") then ["c.paml"]
      else [] }

/-- Witness for C2 (amended): a failing extraction frame at b.paml, and
a frozen dependency loop once the exception is pending. -/
theorem claim_C2_witness :
    fromPath envC2 5 TrackerSt.init "b.paml" false none =
      ({TrackerSt.init with paths := TrackerSt.init.paths ++ ["b.paml"]},
       [TEvent.parse "b.paml" (TrackerSt.init.paths ++ ["b.paml"])],
       some (CrawlErr.parseFailure "b.paml"
         "Attributes must be comma-separated")) ∧
    [(("paml:file" : String), ("c.paml" : String))].foldl
      (depStep envC2 .paml "a.paml" true
        (fun s q ty => fromPath envC2 3 s q true ty))
      (TrackerSt.init, [], some CrawlErr.nameErrorItem) =
      (TrackerSt.init, [], some CrawlErr.nameErrorItem) :=
  ⟨claim_C2_malformed_declaration_aborts.1 envC2 4 TrackerSt.init "b.paml"
      false none .paml "Attributes must be comma-separated" (by decide)
      (by decide) (by decide) (by decide) rfl,
   claim_C2_malformed_declaration_aborts.2.1 envC2 .paml "a.paml" true _ _ _
      CrawlErr.nameErrorItem rfl⟩

/-- Counterexample to C2 as stated: the malformed declaration in b.paml
(here the attribute text x=, rejected by the attribute grammar) aborts
not only b.paml but the whole crawl: c.paml is never processed, while
the state aggregated from a.paml is preserved. -/
theorem claim_C2_counterexample :
    pamlParseAttributes reSample "x=".data =
      Except.error "Attributes must be comma-separated" ∧
    (fromPath envC2 3 TrackerSt.init "a.paml" true none).2.2 =
      some (CrawlErr.parseFailure "b.paml"
        "Attributes must be comma-separated") ∧
    (fromPath envC2 3 TrackerSt.init "a.paml" true none).1.paths =
      ["a.paml", "b.paml"] ∧
    "c.paml" ∉ (fromPath envC2 3 TrackerSt.init "a.paml" true none).1.paths ∧
    (fromPath envC2 3 TrackerSt.init "a.paml" true none).1.provides.map
      Prod.fst = ["a.paml"] := by
  refine ⟨rfl, by decide, by decide, by decide, by decide⟩

/-! ## Claim C4: the composite + path branch raises NameError -/

/-- A filesystem on which a.js and b.js exist but the composite entry
a.js+b.js does not. -/
def envC4 : TEnv :=
  { exist := fun p => ! (p = "a.js+b.js" : Bool)
    isdir := fun _ => false
    extract := fun _ _ _ => .ok ([], [])
    resolvePaths := fun _ _ _ => [] }

/-- Claim C4 evaluated at the failing input: the composite path
a.js+b.js does not exist and contains a +, so core.py 481 evaluates the
unbound name item and the crawl raises NameError instead of expanding
and crawling a.js and b.js; no sibling is visited and no state is
aggregated. -/
theorem claim_C4_composite_path_crash :
    envC4.exist "a.js+b.js" = false ∧
    envC4.exist "a.js" = true ∧
    envC4.exist "b.js" = true ∧
    hasPlus "a.js+b.js" = true ∧
    fromPath envC4 5 TrackerSt.init "a.js+b.js" false none =
      (TrackerSt.init, [], some CrawlErr.nameErrorItem) ∧
    (fromPathTop envC4 5 "a.js+b.js" false).1 = none := by
  refine ⟨by decide, by decide, by decide, by decide, by decide, rfl⟩

/-! ## Claim C7: the resolved cache is reset on every resolve call -/

/-- A resolver that finds x.js for the item from context p1.js and
nothing from context p2.js. -/
def envC7 : TEnv :=
  { exist := fun _ => true
    isdir := fun _ => false
    extract := fun _ _ _ => .ok ([], [])
    resolvePaths := fun _ _ p => if p = "p1.js" then ["x.js"] else [] }

/-- Claim C7 evaluated at the failing input: the first resolve call for
the item caches x.js, but the second call for the same item from a
context where resolution finds nothing resets the entry to the empty
list, because the cache-presence test at core.py 530 compares the item's
name string against pair keys and therefore always re-initialises the
entry.  The cached path from the earlier call is not preserved. -/
theorem claim_C7_cache_reset :
    lookupA (trackerResolve envC7 .javascript ("js:module", "m") "p1.js"
      TrackerSt.init).1.resolved ("js:module", "m") = some ["x.js"] ∧
    lookupA (trackerResolve envC7 .javascript ("js:module", "m") "p2.js"
      (trackerResolve envC7 .javascript ("js:module", "m") "p1.js"
        TrackerSt.init).1).1.resolved ("js:module", "m") = some [] := by
  refine ⟨by decide, by decide⟩

/-! ## Claim C10: parse and parseText versus parsePath (Sugar) -/

/-- Python regular-expression class \s over the line characters. -/
def charIsSpace (c : Char) : Bool :=
  c == ' ' || c == '\t' || c == '\n' || c == '\r' || c == '\x0b' || c == '\x0c'

/-- re.match of Sugar.LINES onModule, pattern @module\s+([^\s]+) anchored
at the start: group(1) when the line matches. -/
def matchModule (l : List Char) : Option (List Char) :=
  if "@module".data.isPrefixOf l then
    let r1 := l.drop 7
    if r1.takeWhile charIsSpace = [] then none
    else
      let g := (r1.dropWhile charIsSpace).takeWhile (fun c => ! charIsSpace c)
      if g = [] then none else some g
  else none

/-- re.match of Sugar.LINES onSugar2, pattern @feature\s+sugar\s*[= ]\s*2.*$
anchored at the start.  The characters between sugar and the digit 2 are
whitespace with either exactly one = or at least one literal space, and
.*$ accepts the rest iff no newline occurs before a final one. -/
def matchSugar2 (l : List Char) : Bool :=
  if "@feature".data.isPrefixOf l then
    let r1 := l.drop 8
    if r1.takeWhile charIsSpace = [] then false
    else
      let r2 := r1.dropWhile charIsSpace
      if "sugar".data.isPrefixOf r2 then
        let r3 := r2.drop 5
        let seg := r3.takeWhile (fun c => charIsSpace c || c == '=')
        let r4 := r3.dropWhile (fun c => charIsSpace c || c == '=')
        (r4.head? == some '2') &&
          (seg.count '=' == 1 ||
            (seg.count '=' == 0 && seg.contains ' ')) &&
          ! r4.tail.dropLast.contains '\n'
      else false
  else false

/-- re.match of Sugar.LINES onImport, pattern @import anchored at the
start. -/
def matchImportB (l : List Char) : Bool := "@import".data.isPrefixOf l

/-- Python str.strip() restricted to the ASCII whitespace of \s. -/
def stripWs (l : List Char) : List Char :=
  ((l.dropWhile charIsSpace).reverse.dropWhile charIsSpace).reverse

/-- Python s.split(pat, 1)[1] for a nonempty pat: the suffix after the
first occurrence of pat, or none when pat does not occur in s. -/
def findSub (pat : List Char) : List Char → Option (List Char)
  | [] => none
  | c :: r =>
    if pat.isPrefixOf (c :: r) then some ((c :: r).drop pat.length)
    else findSub pat r

/-- The mutable state of a Sugar LineParser instance: provides, requires
(base class), version (set by Sugar.onParse), and the path and type slots
managed by parsePath. -/
structure SugarSt where
  provides : List Item
  requires : List Item
  version : Nat
  type : Option String
  path : Option String
deriving DecidableEq

/-- A fresh Sugar() instance (version is first written by onParse, which
every entry point calls before any line is parsed). -/
def SugarSt.init : SugarSt := ⟨[], [], 1, none, none⟩

/-- Sequential statement execution with Python exception propagation:
the first error aborts the remaining iterations of the loop. -/
def foldE (f : SugarSt → List Char → Except Unit SugarSt) :
    List (List Char) → SugarSt → Except Unit SugarSt
  | [], st => .ok st
  | l :: ls, st =>
    match f st l with
    | .error e => .error e
    | .ok st2 => foldE f ls st2

/-- One iteration of the for-loop of Sugar.onImport (core.py 270-274):
strip the comma-separated segment, take its first whitespace token
(IndexError when the stripped segment is empty), and append the
requirement. -/
def importStep (s : SugarSt) (seg : List Char) : Except Unit SugarSt :=
  let t := stripWs seg
  if t = [] then .error ()
  else
    let tok := t.takeWhile (fun c => ! charIsSpace c)
    if tok = [] then .ok s
    else
      .ok {s with requires :=
        s.requires ++ [(s.type.getD "js:module", (⟨tok⟩ : String))]}

/-- Sugar.onImport (core.py 266-274): drop the matched @import, keep the
text after the first from separator when present, and process the
comma-separated segments in order. -/
def sugarOnImport (st : SugarSt) (l : List Char) : Except Unit SugarSt :=
  let r0 := l.drop 7
  let r1 :=
    match findSub " from ".data r0 with
    | some r => r
    | none => r0
  foldE importStep (splitOnC ',' r1) st

/-- LineParser.parseLine specialised to Sugar.LINES: the three patterns
are tested in declared order and the first match's handler runs. -/
def sugarParseLine (st : SugarSt) (l : List Char) : Except Unit SugarSt :=
  match matchModule l with
  | some g =>
    .ok {st with provides :=
      st.provides ++ [(st.type.getD "js:module", (⟨g⟩ : String))]}
  | none =>
    if matchSugar2 l then .ok {st with version := 2}
    else if matchImportB l then sugarOnImport st l
    else .ok st

/-- Sugar.onParse: reset requires and set version to 1. -/
def sugarOnParse (st : SugarSt) : SugarSt :=
  {st with requires := [], version := 1}

/-- Sugar.onParseEnd: version-1 files get the implicit extend dependency
inserted at position 0 of requires. -/
def sugarOnParseEnd (st : SugarSt) : SugarSt :=
  if st.version = 1 then
    {st with requires := (st.type.getD "js:module", "extend") :: st.requires}
  else st

/-- LineParser.parse (core.py 84-88) with Sugar handlers: onParse, then
one parseLine per text.split of the newline, and no end hook.  The path
and type arguments only feed onParse, which Sugar ignores. -/
def Sugar.parse (st : SugarSt) (text : List Char)
    (_path _type : Option String) : Except Unit SugarSt :=
  foldE sugarParseLine (splitOnC '\n' text) (sugarOnParse st)

/-- LineParser.parseText (core.py 81-82): delegates to parse. -/
def Sugar.parseText (st : SugarSt) (text : List Char)
    (path type : Option String) : Except Unit SugarSt :=
  Sugar.parse st text path type

/-- f.readlines() applied to the split lines of the file content: every
line but the last keeps its trailing newline, and a trailing empty
fragment produces no line. -/
def linesOf : List (List Char) → List (List Char)
  | [] => []
  | [l] => if l = [] then [] else [l]
  | l :: l2 :: r => (l ++ ['\n']) :: linesOf (l2 :: r)

/-- f.readlines() on the file content. -/
def readLines (text : List Char) : List (List Char) :=
  linesOf (splitOnC '\n' text)

/-- LineParser.parsePath (core.py 69-79) with Sugar handlers: set the
path and type slots, run onParse, parse each physical line, run
onParseEnd, then clear the slots. -/
def Sugar.parsePath (st : SugarSt) (text : List Char) (path : String)
    (type : Option String) : Except Unit SugarSt :=
  match foldE sugarParseLine (readLines text)
      (sugarOnParse {st with path := some path, type := type}) with
  | .error e => .error e
  | .ok s => .ok {sugarOnParseEnd s with path := none, type := none}

/-- Rewrite the last fragment of a split, used to relate the split of
text ++ [c] to the split of text. -/
def mapLast (f : List Char → List Char) : List (List Char) → List (List Char)
  | [] => []
  | [x] => [f x]
  | x :: y :: r => x :: mapLast f (y :: r)

theorem takeWhile_append_last_false {f : Char → Bool} (c : Char)
    (hc : f c = false) :
    ∀ D : List Char, (D ++ [c]).takeWhile f = D.takeWhile f := by
  intro D
  induction D with
  | nil => simp [List.takeWhile_cons, hc]
  | cons d D ih =>
    rw [List.cons_append, List.takeWhile_cons, List.takeWhile_cons]
    cases hfd : f d
    · simp
    · simp [ih]

theorem dropWhile_append_all {f : Char → Bool} (A m : List Char)
    (h : A.all f = true) : (A ++ m).dropWhile f = m.dropWhile f := by
  induction A with
  | nil => simp
  | cons a A ih =>
    rw [List.all_cons, Bool.and_eq_true] at h
    rw [List.cons_append, List.dropWhile_cons]
    simp [h.1, ih h.2]

theorem dropWhile_append_not {f : Char → Bool} (A m : List Char)
    (h : A.all f = false) : (A ++ m).dropWhile f = A.dropWhile f ++ m := by
  induction A with
  | nil => simp at h
  | cons a A ih =>
    rw [List.cons_append, List.dropWhile_cons, List.dropWhile_cons]
    rw [List.all_cons] at h
    cases hfa : f a
    · simp
    · rw [hfa, Bool.true_and] at h
      simp [ih h]

theorem isPrefixOf_append_single {p : List Char} (c : Char) (hp : c ∉ p) :
    ∀ l : List Char, p.isPrefixOf (l ++ [c]) = p.isPrefixOf l := by
  induction p with
  | nil => intro l; simp [List.isPrefixOf]
  | cons a p ih =>
    intro l
    cases l with
    | nil =>
      have hac : (a == c) = false := by
        refine beq_eq_false_iff_ne.mpr (fun h => hp ?_)
        rw [h]; exact List.mem_cons_self _ _
      simp [List.isPrefixOf, hac]
    | cons b l =>
      rw [List.cons_append]
      show ((a == b) && p.isPrefixOf (l ++ [c])) = ((a == b) && p.isPrefixOf l)
      rw [ih (fun hm => hp (List.mem_cons_of_mem _ hm)) l]

theorem length_le_of_isPrefixOf {p l : List Char}
    (h : p.isPrefixOf l = true) : p.length ≤ l.length :=
  (List.isPrefixOf_iff_prefix.mp h).length_le

theorem findSub_append_nl (pat : List Char) (hp : ('\n' : Char) ∉ pat)
    (hne : pat ≠ []) :
    ∀ r : List Char,
      findSub pat (r ++ ['\n']) = (findSub pat r).map (fun s => s ++ ['\n']) := by
  intro r
  induction r with
  | nil =>
    obtain ⟨a, p', rfl⟩ : ∃ a p', pat = a :: p' := by
      cases pat with
      | nil => exact absurd rfl hne
      | cons a p' => exact ⟨a, p', rfl⟩
    have hac : (a == '\n') = false := by
      refine beq_eq_false_iff_ne.mpr (fun h => hp ?_)
      rw [h]; exact List.mem_cons_self _ _
    simp [findSub, List.isPrefixOf, hac]
  | cons d r ih =>
    rw [List.cons_append, findSub, findSub]
    rw [show d :: (r ++ ['\n']) = (d :: r) ++ ['\n'] from rfl,
      isPrefixOf_append_single '\n' hp (d :: r)]
    cases hpre : pat.isPrefixOf (d :: r)
    · simp only [Bool.false_eq_true, if_false]
      exact ih
    · simp only [if_true]
      rw [List.drop_append_of_le_length (length_le_of_isPrefixOf hpre)]
      rfl

theorem splitOnC_ne_nil (sep : Char) : ∀ r : List Char, splitOnC sep r ≠ [] := by
  intro r
  cases r with
  | nil => simp [splitOnC]
  | cons c r =>
    rw [splitOnC]
    by_cases hc : c = sep
    · rw [if_pos hc]
      simp
    · rw [if_neg hc]
      cases hsp : splitOnC sep r <;> simp

theorem splitOnC_append_ne (sep c : Char) (hc : ¬ c = sep) :
    ∀ r : List Char,
      splitOnC sep (r ++ [c]) = mapLast (fun x => x ++ [c]) (splitOnC sep r) := by
  intro r
  induction r with
  | nil =>
    simp [splitOnC, hc, mapLast]
  | cons d r ih =>
    rw [List.cons_append, splitOnC, splitOnC, ih]
    cases hsp : splitOnC sep r with
    | nil => exact absurd hsp (splitOnC_ne_nil sep r)
    | cons h t =>
      by_cases hd : d = sep
      · rw [if_pos hd, if_pos hd]
        cases t <;> rfl
      · rw [if_neg hd, if_neg hd]
        cases t <;> rfl

theorem mem_splitOnC (sep : Char) :
    ∀ (r x : List Char), x ∈ splitOnC sep r → sep ∉ x := by
  intro r
  induction r with
  | nil =>
    intro x hx
    rw [splitOnC, List.mem_singleton] at hx
    rw [hx]
    exact List.not_mem_nil sep
  | cons c r ih =>
    intro x hx
    rw [splitOnC] at hx
    by_cases hcs : c = sep
    · rw [if_pos hcs, List.mem_cons] at hx
      rcases hx with h | h
      · rw [h]; exact List.not_mem_nil sep
      · exact ih x h
    · rw [if_neg hcs] at hx
      cases hsp : splitOnC sep r with
      | nil => exact absurd hsp (splitOnC_ne_nil sep r)
      | cons h t =>
        rw [hsp, List.mem_cons] at hx
        rcases hx with hx | hx
        · rw [hx]
          intro hmem
          rcases List.mem_cons.mp hmem with h1 | h1
          · exact hcs h1.symm
          · exact ih h (hsp ▸ List.mem_cons_self h t) h1
        · exact ih x (hsp ▸ List.mem_cons_of_mem h hx)

theorem stripWs_append_nl (x : List Char) :
    stripWs (x ++ ['\n']) = stripWs x := by
  rw [stripWs, stripWs]
  cases hall : x.all charIsSpace
  · rw [dropWhile_append_not x ['\n'] hall, List.reverse_append,
      List.reverse_singleton, List.singleton_append, List.dropWhile_cons,
      if_pos (show charIsSpace '\n' = true from rfl)]
  · rw [dropWhile_append_all x ['\n'] hall]
    have hx : x.dropWhile charIsSpace = [] := by
      rw [List.dropWhile_eq_nil_iff]
      intro a ha
      exact List.all_eq_true.mp hall a ha
    rw [hx]
    rfl

theorem takeWhile_append_not {f : Char → Bool} (A m : List Char)
    (h : A.all f = false) : (A ++ m).takeWhile f = A.takeWhile f := by
  induction A with
  | nil => simp at h
  | cons a A ih =>
    rw [List.cons_append, List.takeWhile_cons, List.takeWhile_cons]
    rw [List.all_cons] at h
    cases hfa : f a
    · simp
    · rw [hfa, Bool.true_and] at h
      simp [ih h]

theorem matchModule_append_nl (l : List Char) (h : ('\n' : Char) ∉ l) :
    matchModule (l ++ ['\n']) = matchModule l := by
  simp only [matchModule]
  rw [isPrefixOf_append_single '\n' (by decide) l]
  by_cases hpre : ("@module".data.isPrefixOf l) = true
  · rw [if_pos hpre, if_pos hpre,
      List.drop_append_of_le_length
        (show 7 ≤ l.length from length_le_of_isPrefixOf hpre)]
    have hAnl : ('\n' : Char) ∉ l.drop 7 := fun hm => h (List.drop_subset 7 l hm)
    revert hAnl
    generalize l.drop 7 = A
    intro hAnl
    cases A with
    | nil => rfl
    | cons a A2 =>
      rw [List.cons_append]
      cases hws : charIsSpace a
      · rw [List.takeWhile_cons, List.takeWhile_cons, hws]
        simp
      · have hne1 : (a :: (A2 ++ ['\n'])).takeWhile charIsSpace ≠ [] := by
          rw [List.takeWhile_cons, if_pos hws]
          simp
        have hne2 : (a :: A2).takeWhile charIsSpace ≠ [] := by
          rw [List.takeWhile_cons, if_pos hws]
          simp
        rw [if_neg hne1, if_neg hne2, ← List.cons_append]
        cases hall : (a :: A2).all charIsSpace
        · rw [dropWhile_append_not (a :: A2) ['\n'] hall,
            takeWhile_append_last_false '\n'
              (show (fun c => ! charIsSpace c) '\n' = false from rfl)
              ((a :: A2).dropWhile charIsSpace)]
        · rw [dropWhile_append_all (a :: A2) ['\n'] hall]
          have hx : (a :: A2).dropWhile charIsSpace = [] := by
            rw [List.dropWhile_eq_nil_iff]
            intro x hxm
            exact List.all_eq_true.mp hall x hxm
          rw [hx]
          rfl
  · rw [if_neg hpre, if_neg hpre]

theorem matchSugar2_append_nl (l : List Char) (h : ('\n' : Char) ∉ l) :
    matchSugar2 (l ++ ['\n']) = matchSugar2 l := by
  simp only [matchSugar2]
  rw [isPrefixOf_append_single '\n' (by decide) l]
  by_cases hpre : ("@feature".data.isPrefixOf l) = true
  · rw [if_pos hpre, if_pos hpre,
      List.drop_append_of_le_length
        (show 8 ≤ l.length from length_le_of_isPrefixOf hpre)]
    have hAnl : ('\n' : Char) ∉ l.drop 8 := fun hm => h (List.drop_subset 8 l hm)
    revert hAnl
    generalize l.drop 8 = A
    intro hAnl
    cases A with
    | nil => rfl
    | cons a A2 =>
      rw [List.cons_append]
      cases hws : charIsSpace a
      · rw [List.takeWhile_cons, List.takeWhile_cons, hws]
        simp
      · have hne1 : (a :: (A2 ++ ['\n'])).takeWhile charIsSpace ≠ [] := by
          rw [List.takeWhile_cons, if_pos hws]
          simp
        have hne2 : (a :: A2).takeWhile charIsSpace ≠ [] := by
          rw [List.takeWhile_cons, if_pos hws]
          simp
        rw [if_neg hne1, if_neg hne2, ← List.cons_append]
        cases hall : (a :: A2).all charIsSpace
        · rw [dropWhile_append_not (a :: A2) ['\n'] hall,
            isPrefixOf_append_single '\n' (by decide)
              ((a :: A2).dropWhile charIsSpace)]
          by_cases hpre2 :
              ("sugar".data.isPrefixOf ((a :: A2).dropWhile charIsSpace)) = true
          · rw [if_pos hpre2, if_pos hpre2,
              List.drop_append_of_le_length
                (show 5 ≤ ((a :: A2).dropWhile charIsSpace).length from
                  length_le_of_isPrefixOf hpre2)]
            have hBnl : ('\n' : Char) ∉ ((a :: A2).dropWhile charIsSpace).drop 5 :=
              fun hm => hAnl (List.dropWhile_subset _ (List.drop_subset 5 _ hm))
            revert hBnl
            generalize ((a :: A2).dropWhile charIsSpace).drop 5 = B
            intro hBnl
            cases hallB : B.all (fun c => charIsSpace c || c == '=')
            · rw [takeWhile_append_not B ['\n'] hallB,
                dropWhile_append_not B ['\n'] hallB]
              have hr4ne : B.dropWhile (fun c => charIsSpace c || c == '=') ≠ [] := by
                intro hcon
                rw [List.dropWhile_eq_nil_iff] at hcon
                exact absurd (List.all_eq_true.mpr hcon) (by simp [hallB])
              cases hr4 : B.dropWhile (fun c => charIsSpace c || c == '=') with
              | nil => exact absurd hr4 hr4ne
              | cons c4 r5 =>
                rw [List.cons_append]
                simp only [List.head?_cons, List.tail_cons]
                rw [List.dropLast_concat]
                have hnl5 : ('\n' : Char) ∉ r5 := by
                  intro hm
                  exact hBnl (List.dropWhile_subset _
                    (hr4 ▸ List.mem_cons_of_mem c4 hm))
                have h5a : r5.contains '\n' = false := by simp [hnl5]
                have h5b : r5.dropLast.contains '\n' = false := by
                  have hnm : ('\n' : Char) ∉ r5.dropLast :=
                    fun hm => hnl5 (List.dropLast_subset r5 hm)
                  simp [hnm]
                rw [h5a, h5b]
            · rw [dropWhile_append_all B ['\n'] hallB]
              have hB0 : B.dropWhile (fun c => charIsSpace c || c == '=') = [] := by
                rw [List.dropWhile_eq_nil_iff]
                intro x hxm
                exact List.all_eq_true.mp hallB x hxm
              rw [hB0]
              rfl
          · rw [if_neg hpre2, if_neg hpre2]
        · rw [dropWhile_append_all (a :: A2) ['\n'] hall]
          have hx : (a :: A2).dropWhile charIsSpace = [] := by
            rw [List.dropWhile_eq_nil_iff]
            intro x hxm
            exact List.all_eq_true.mp hall x hxm
          rw [hx]
          rfl
  · rw [if_neg hpre, if_neg hpre]

theorem matchImportB_append_nl (l : List Char) :
    matchImportB (l ++ ['\n']) = matchImportB l := by
  rw [matchImportB, matchImportB, isPrefixOf_append_single '\n' (by decide) l]

theorem importStep_append_nl (s : SugarSt) (x : List Char) :
    importStep s (x ++ ['\n']) = importStep s x := by
  simp only [importStep, stripWs_append_nl]

theorem foldE_mapLast (f : SugarSt → List Char → Except Unit SugarSt)
    (hf : ∀ s x, f s (x ++ ['\n']) = f s x) :
    ∀ (xs : List (List Char)) (st : SugarSt),
      foldE f (mapLast (fun x => x ++ ['\n']) xs) st = foldE f xs st := by
  intro xs
  induction xs with
  | nil => intro st; rfl
  | cons x xs ih =>
    intro st
    cases xs with
    | nil =>
      show foldE f [x ++ ['\n']] st = foldE f [x] st
      rw [foldE, foldE, hf]
    | cons y ys =>
      show foldE f (x :: mapLast (fun x => x ++ ['\n']) (y :: ys)) st
        = foldE f (x :: y :: ys) st
      rw [foldE, foldE]
      cases hres : f st x
      · rfl
      · exact ih _

theorem sugarOnImport_append_nl (st : SugarSt) (l : List Char)
    (h7 : 7 ≤ l.length) :
    sugarOnImport st (l ++ ['\n']) = sugarOnImport st l := by
  simp only [sugarOnImport]
  rw [List.drop_append_of_le_length h7,
    findSub_append_nl " from ".data (by decide) (by decide) (l.drop 7)]
  cases hfs : findSub " from ".data (l.drop 7)
  · simp only [hfs, Option.map_none']
    rw [splitOnC_append_ne ',' '\n' (by decide) (l.drop 7)]
    exact foldE_mapLast importStep importStep_append_nl _ st
  · simp only [hfs, Option.map_some']
    rw [splitOnC_append_ne ',' '\n' (by decide)]
    exact foldE_mapLast importStep importStep_append_nl _ st

theorem sugarParseLine_append_nl (st : SugarSt) (l : List Char)
    (h : ('\n' : Char) ∉ l) :
    sugarParseLine st (l ++ ['\n']) = sugarParseLine st l := by
  simp only [sugarParseLine]
  rw [matchModule_append_nl l h, matchSugar2_append_nl l h,
    matchImportB_append_nl l]
  cases hm : matchModule l
  · simp only [hm]
    by_cases h2 : (matchSugar2 l) = true
    · rw [if_pos h2, if_pos h2]
    · rw [if_neg h2, if_neg h2]
      by_cases h3 : (matchImportB l) = true
      · rw [if_pos h3, if_pos h3]
        exact sugarOnImport_append_nl st l (length_le_of_isPrefixOf h3)
      · rw [if_neg h3, if_neg h3]
  · simp only [hm]

theorem sugarParseLine_nil (st : SugarSt) : sugarParseLine st [] = .ok st := rfl

theorem foldE_linesOf :
    ∀ (parts : List (List Char)) (st : SugarSt),
      (∀ x ∈ parts, ('\n' : Char) ∉ x) →
      foldE sugarParseLine (linesOf parts) st = foldE sugarParseLine parts st := by
  intro parts
  induction parts with
  | nil => intro st h; rfl
  | cons x xs ih =>
    intro st h
    cases xs with
    | nil =>
      by_cases hx : x = []
      · subst hx
        rfl
      · show foldE sugarParseLine (if x = [] then [] else [x]) st = _
        rw [if_neg hx]
    | cons y ys =>
      show foldE sugarParseLine ((x ++ ['\n']) :: linesOf (y :: ys)) st
        = foldE sugarParseLine (x :: y :: ys) st
      rw [foldE, foldE, sugarParseLine_append_nl st x (h x (List.mem_cons_self _ _))]
      cases hres : sugarParseLine st x
      · rfl
      · exact ih _ (fun z hz => h z (List.mem_cons_of_mem x hz))

theorem importStep_pt (s : SugarSt) (x : List Char) (s2 : SugarSt)
    (h : importStep s x = .ok s2) : s2.path = s.path ∧ s2.type = s.type := by
  simp only [importStep] at h
  by_cases h1 : stripWs x = []
  · rw [if_pos h1] at h
    cases h
  · rw [if_neg h1] at h
    by_cases h2 : (stripWs x).takeWhile (fun c => ! charIsSpace c) = []
    · rw [if_pos h2] at h
      injection h with h
      rw [← h]
      exact ⟨rfl, rfl⟩
    · rw [if_neg h2] at h
      injection h with h
      rw [← h]
      exact ⟨rfl, rfl⟩

theorem foldE_pt (f : SugarSt → List Char → Except Unit SugarSt)
    (hf : ∀ s x s2, f s x = .ok s2 → s2.path = s.path ∧ s2.type = s.type) :
    ∀ (xs : List (List Char)) (s s2 : SugarSt),
      foldE f xs s = .ok s2 → s2.path = s.path ∧ s2.type = s.type := by
  intro xs
  induction xs with
  | nil =>
    intro s s2 h
    simp only [foldE] at h
    injection h with h
    rw [← h]
    exact ⟨rfl, rfl⟩
  | cons x xs ih =>
    intro s s2 h
    simp only [foldE] at h
    cases hres : f s x with
    | error e =>
      rw [hres] at h
      cases h
    | ok u =>
      simp only [hres] at h
      obtain ⟨h1, h2⟩ := ih u s2 h
      obtain ⟨h3, h4⟩ := hf s x u hres
      exact ⟨h1.trans h3, h2.trans h4⟩

theorem sugarOnImport_pt (s : SugarSt) (l : List Char) (s2 : SugarSt)
    (h : sugarOnImport s l = .ok s2) : s2.path = s.path ∧ s2.type = s.type := by
  simp only [sugarOnImport] at h
  exact foldE_pt importStep importStep_pt _ s s2 h

theorem sugarParseLine_pt (s : SugarSt) (l : List Char) (s2 : SugarSt)
    (h : sugarParseLine s l = .ok s2) : s2.path = s.path ∧ s2.type = s.type := by
  simp only [sugarParseLine] at h
  cases hm : matchModule l with
  | some g =>
    simp only [hm] at h
    injection h with h
    rw [← h]
    exact ⟨rfl, rfl⟩
  | none =>
    simp only [hm] at h
    by_cases h2 : (matchSugar2 l) = true
    · rw [if_pos h2] at h
      injection h with h
      rw [← h]
      exact ⟨rfl, rfl⟩
    · rw [if_neg h2] at h
      by_cases h3 : (matchImportB l) = true
      · rw [if_pos h3] at h
        exact sugarOnImport_pt s l s2 h
      · rw [if_neg h3] at h
        injection h with h
        rw [← h]
        exact ⟨rfl, rfl⟩

theorem importStep_setPath (q : Option String) (s : SugarSt) (x : List Char) :
    importStep {s with path := q} x =
      (importStep s x).map (fun u => {u with path := q}) := by
  simp only [importStep]
  by_cases h1 : stripWs x = []
  · rw [if_pos h1, if_pos h1]
    rfl
  · rw [if_neg h1, if_neg h1]
    by_cases h2 : (stripWs x).takeWhile (fun c => ! charIsSpace c) = []
    · rw [if_pos h2, if_pos h2]
      rfl
    · rw [if_neg h2, if_neg h2]
      rfl

theorem foldE_setPath (q : Option String)
    (f : SugarSt → List Char → Except Unit SugarSt)
    (hf : ∀ s x, f {s with path := q} x = (f s x).map (fun u => {u with path := q})) :
    ∀ (xs : List (List Char)) (s : SugarSt),
      foldE f xs {s with path := q} =
        (foldE f xs s).map (fun u => {u with path := q}) := by
  intro xs
  induction xs with
  | nil => intro s; rfl
  | cons x xs ih =>
    intro s
    simp only [foldE, hf]
    cases hres : f s x
    · rfl
    · exact ih _

theorem sugarOnImport_setPath (q : Option String) (st : SugarSt) (l : List Char) :
    sugarOnImport {st with path := q} l =
      (sugarOnImport st l).map (fun u => {u with path := q}) := by
  simp only [sugarOnImport]
  exact foldE_setPath q importStep (importStep_setPath q) _ st

theorem sugarParseLine_setPath (q : Option String) (st : SugarSt) (l : List Char) :
    sugarParseLine {st with path := q} l =
      (sugarParseLine st l).map (fun u => {u with path := q}) := by
  simp only [sugarParseLine]
  cases hm : matchModule l with
  | some g => rfl
  | none =>
    dsimp only
    by_cases h2 : (matchSugar2 l) = true
    · rw [if_pos h2, if_pos h2]
      rfl
    · rw [if_neg h2, if_neg h2]
      by_cases h3 : (matchImportB l) = true
      · rw [if_pos h3, if_pos h3]
        exact sugarOnImport_setPath q st l
      · rw [if_neg h3, if_neg h3]
        rfl

/-- Claim C10.  LineParser.parse and parseText never invoke the
onParseEnd hook — parseText delegates to parse, whose body runs onParse
and the line loop only — whereas parsePath always does.  Consequently,
when parse of a Sugar source succeeds with version 1, parsePath on the
same content returns the same result except that the implicit
("js:module", "extend") requirement is prepended to requires, so the two
entry points produce different results for identical content. -/
theorem claim_C10_parse_entry_points
    (text : List Char) (path : String) (p : SugarSt)
    (hp : Sugar.parse SugarSt.init text none none = Except.ok p)
    (hv : p.version = 1) :
    (∀ (st : SugarSt) (t : List Char) (q ty : Option String),
        Sugar.parseText st t q ty = Sugar.parse st t q ty) ∧
    Sugar.parsePath SugarSt.init text path none =
      Except.ok {p with requires := ("js:module", "extend") :: p.requires} ∧
    ("js:module", "extend") :: p.requires ≠ p.requires := by
  obtain ⟨pv, rq, vv, ty, pa⟩ := p
  have hvv : vv = 1 := hv
  subst hvv
  refine ⟨fun st t q ty2 => rfl, ?_, ?_⟩
  · have hsplitnl : ∀ x ∈ splitOnC '\n' text, ('\n' : Char) ∉ x :=
      fun x hx => mem_splitOnC '\n' text x hx
    have hparse : foldE sugarParseLine (splitOnC '\n' text)
        (sugarOnParse SugarSt.init) = Except.ok ⟨pv, rq, 1, ty, pa⟩ := hp
    have hlines : foldE sugarParseLine (readLines text)
        (sugarOnParse SugarSt.init) = Except.ok ⟨pv, rq, 1, ty, pa⟩ := by
      rw [readLines, foldE_linesOf (splitOnC '\n' text) _ hsplitnl]
      exact hparse
    obtain ⟨hpa, hty⟩ :=
      foldE_pt sugarParseLine sugarParseLine_pt (readLines text) _ _ hlines
    have hpa2 : pa = none := hpa
    have hty2 : ty = none := hty
    subst hpa2
    subst hty2
    have heq : sugarOnParse {SugarSt.init with path := some path, type := none}
        = {sugarOnParse SugarSt.init with path := some path} := rfl
    have hfold2 : foldE sugarParseLine (readLines text)
        (sugarOnParse {SugarSt.init with path := some path, type := none})
        = Except.ok {(⟨pv, rq, 1, none, none⟩ : SugarSt) with path := some path} := by
      rw [heq,
        foldE_setPath (some path) sugarParseLine
          (sugarParseLine_setPath (some path)) (readLines text)
          (sugarOnParse SugarSt.init),
        hlines]
      rfl
    simp only [Sugar.parsePath]
    rw [hfold2]
    rfl
  · intro hcon
    have hlen := congrArg List.length hcon
    simp at hlen

/-- Witness for C10: for the two-line Sugar source @module foo /
@import bar, parse yields requires = [bar-item] while parsePath yields
the extend item prepended, and parseText coincides with parse. -/
theorem claim_C10_witness :
    (∀ (st : SugarSt) (t : List Char) (q ty : Option String),
        Sugar.parseText st t q ty = Sugar.parse st t q ty) ∧
    Sugar.parsePath SugarSt.init "@module foo\n@import bar".data "f.sjs" none =
      Except.ok ⟨[("js:module", "foo")],
        [("js:module", "extend"), ("js:module", "bar")], 1, none, none⟩ ∧
    [(("js:module" : String), ("extend" : String)), ("js:module", "bar")] ≠
      [("js:module", "bar")] :=
  claim_C10_parse_entry_points "@module foo\n@import bar".data "f.sjs"
    ⟨[("js:module", "foo")], [("js:module", "bar")], 1, none, none⟩ rfl rfl
